import Mathlib

/-!
Verification development for the KyrieLock file-encryption engine
(`src/rust_crypto/src/lib.rs`).

Bytes are modelled as `List Nat`; files are byte lists. File I/O is
modelled by passing the full input byte list and returning the produced
output byte list; the OS CSPRNG behind `generate_nonce` is modelled as an
ambient nonce stream `ns : Nat → List Nat`, where `ns i` is the value
returned by the i-th call to `generate_nonce` during one operation.
Parsing mirrors the source's sequence of `read_exact` / `read_to_end`
calls by `List.take` / `List.drop` on the not-yet-consumed suffix; a
failing `read_exact` (EOF before the buffer is full) is the error
`Err.unexpectedEof` (the spec's TruncatedFrame when it happens inside a
frame body).
-/

/-- Error classes of the engine, mirroring the `Err(...)` early returns of
`lib.rs`: magic mismatch, version mismatch, a GCM `decrypt` failure, and a
propagated `read_exact` end-of-file (`std::io::ErrorKind::UnexpectedEof`,
the spec's *TruncatedFrame* when raised while reading a frame). -/
inductive Err where
  | invalidFormat
  | unsupportedVersion
  | decryptionFailed
  | unexpectedEof
deriving DecidableEq

/-- Constant `NONCE_SIZE` from lib.rs line 15. -/
def NONCE_SIZE : Nat := 12

/-- Constant `TAG_SIZE` from lib.rs line 16. -/
def TAG_SIZE : Nat := 16

/-- Constant `MAGIC_STRING = b"KYRIE_LOCK"` from lib.rs line 17, as bytes. -/
def MAGIC_STRING : List Nat := [75, 89, 82, 73, 69, 95, 76, 79, 67, 75]

/-- Constant `VERSION` from lib.rs line 18. -/
def VERSION : Nat := 1

/-- Constant `HEADER_SIZE` from lib.rs line 19 (magic plus version field). -/
def HEADER_SIZE : Nat := 14

/-- Constant `MAX_HINT_LENGTH` from lib.rs line 20. -/
def MAX_HINT_LENGTH : Nat := 32

/-- Tuner: `get_chunk_size` from lib.rs lines 31-37. -/
def get_chunk_size (is_mobile : Bool) : Nat :=
  if is_mobile then 128 * 1024 * 1024 else 256 * 1024 * 1024

/-- Tuner: `get_parallel_batch_threshold` from lib.rs lines 39-45. -/
def get_parallel_batch_threshold (is_mobile : Bool) : Nat :=
  if is_mobile then 512 * 1024 * 1024 else 1024 * 1024 * 1024

/-- Tuner: `get_parallel_batch_size` from lib.rs lines 47-53. The source
computes `(cpu_cores as f32 * 0.5).round()` (resp. `* 0.75`) and clamps.
Both 0.5 and 0.75 are exact in `f32`, `round` rounds half away from zero
(which on these non-negative values equals Mathlib's `round`), and for any
core count large enough for `cpu_cores as f32` to be inexact the result is
already clamped to the upper bound, so exact rational arithmetic models
the `f32` computation for every `usize` input. Rust's `x.clamp(lo, hi)` is
`min (max x lo) hi`. -/
def get_parallel_batch_size (cpu_cores : Nat) (is_mobile : Bool) : Nat :=
  if is_mobile then
    min (max (round ((cpu_cores : ℚ) * (1 / 2))).toNat 2) 8
  else
    min (max (round ((cpu_cores : ℚ) * (3 / 4))).toNat 4) 16

/-- Little-endian 4-byte encoding, `u32::to_le_bytes` on a value below 2^32. -/
def toLe32 (n : Nat) : List Nat :=
  [n % 256, n / 256 % 256, n / 65536 % 256, n / 16777216 % 256]

/-- Little-endian 4-byte decoding, `u32::from_le_bytes`; parse sites always
pass exactly four bytes, other shapes are given a junk value. -/
def fromLe32 : List Nat → Nat
  | [a, b, c, d] => a + 256 * b + 65536 * c + 16777216 * d
  | _ => 0

/-- Big-endian 4-byte encoding, `u32::to_be_bytes` on a value below 2^32. -/
def toBe32 (n : Nat) : List Nat :=
  [n / 16777216 % 256, n / 65536 % 256, n / 256 % 256, n % 256]

/-- Big-endian 4-byte decoding, `u32::from_be_bytes`. -/
def fromBe32 : List Nat → Nat
  | [a, b, c, d] => 16777216 * a + 65536 * b + 256 * c + d
  | _ => 0

/-- Modelled from the spec: `derive_key` (lib.rs lines 22-29) is a single
SHA-256 pass over the password bytes, producing a deterministic 32-byte
key. The SHA-256 compression function lives in the external `sha2` crate,
not in this repository, so the digest is modelled by an executable
deterministic 32-byte function of the password; every claim below depends
only on determinism and the output arity. -/
def derive_key (password : List Nat) : List Nat :=
  (List.range 32).map (fun i => (password.foldl (fun a b => a * 31 + b) (i + 1)) % 256)

/-- Modelled from the spec: the 16-byte AES-256-GCM authentication tag of
the external `aes_gcm` crate, as an executable deterministic function of
key, nonce and plaintext. Only its determinism and 16-byte arity matter
below. -/
def tagOf (key nonce pt : List Nat) : List Nat :=
  List.replicate 16
    ((key.foldl (fun a b => a * 31 + b) 7 + nonce.foldl (fun a b => a * 31 + b) 11 +
        pt.foldl (fun a b => a * 31 + b) 13) % 256)

/-- Modelled from the spec: `cipher.encrypt(nonce, plaintext)` of AES-256-GCM
with empty associated data — output is ciphertext followed by the 16-byte
tag, of total length `plaintext + 16`. The block cipher itself is external
(`aes_gcm` crate), so sealing is modelled as plaintext plus keyed tag, which
preserves the container arithmetic and the seal/open inversion contract. -/
def sealA (key nonce pt : List Nat) : List Nat :=
  pt ++ tagOf key nonce pt

/-- Modelled from the spec: `cipher.decrypt(nonce, data)` of AES-256-GCM;
it succeeds exactly on outputs of `sealA` under the same key and nonce
(mandatory tag validation), producing no bytes otherwise. -/
def openA (key nonce c : List Nat) : Option (List Nat) :=
  if c.length < 16 then none
  else
    let pt := c.take (c.length - 16)
    if c.drop (c.length - 16) = tagOf key nonce pt then some pt else none

/-- Continuation-byte test of strict UTF-8 validation (0x80..0xBF). -/
def isCont (b : Nat) : Bool := decide (128 ≤ b ∧ b ≤ 191)

/-- Strict UTF-8 validation of a byte sequence, as performed by Rust's
`str::from_utf8` (used via `CStr::to_str` on the hint, lib.rs line 84):
no overlong forms, no surrogates, no code points above U+10FFFF. -/
def validUtf8 : List Nat → Bool
  | [] => true
  | b0 :: t =>
    if b0 ≤ 127 then validUtf8 t
    else if 194 ≤ b0 ∧ b0 ≤ 223 then
      match t with
      | b1 :: t1 => isCont b1 && validUtf8 t1
      | [] => false
    else if b0 = 224 then
      match t with
      | b1 :: b2 :: t2 => decide (160 ≤ b1 ∧ b1 ≤ 191) && isCont b2 && validUtf8 t2
      | _ => false
    else if (225 ≤ b0 ∧ b0 ≤ 236) ∨ b0 = 238 ∨ b0 = 239 then
      match t with
      | b1 :: b2 :: t2 => isCont b1 && isCont b2 && validUtf8 t2
      | _ => false
    else if b0 = 237 then
      match t with
      | b1 :: b2 :: t2 => decide (128 ≤ b1 ∧ b1 ≤ 159) && isCont b2 && validUtf8 t2
      | _ => false
    else if b0 = 240 then
      match t with
      | b1 :: b2 :: b3 :: t3 =>
        decide (144 ≤ b1 ∧ b1 ≤ 191) && isCont b2 && isCont b3 && validUtf8 t3
      | _ => false
    else if 241 ≤ b0 ∧ b0 ≤ 243 then
      match t with
      | b1 :: b2 :: b3 :: t3 => isCont b1 && isCont b2 && isCont b3 && validUtf8 t3
      | _ => false
    else if b0 = 244 then
      match t with
      | b1 :: b2 :: b3 :: t3 =>
        decide (128 ≤ b1 ∧ b1 ≤ 143) && isCont b2 && isCont b3 && validUtf8 t3
      | _ => false
    else false

/-- Conversion of the NUL-terminated hint argument, lib.rs line 84:
`CStr::from_ptr(hint_ptr).to_str().ok()` — the bytes before the NUL are
kept when they are valid UTF-8, otherwise the hint becomes `None`. -/
def cstrToStr (bytes : List Nat) : Option (List Nat) :=
  if validUtf8 bytes then some bytes else none

/-- Hint bytes actually written: `hint.map(as_bytes).unwrap_or(&[]).iter()
.take(MAX_HINT_LENGTH)`, lib.rs lines 111-117. -/
def hintBytesOf (hint : Option (List Nat)) : List Nat :=
  (hint.getD []).take MAX_HINT_LENGTH

/-- Container header as written by `encrypt_file_internal`, lib.rs lines
120-123: magic, version little-endian, one `hint_len` byte, hint bytes. -/
def headerOf (hint : Option (List Nat)) : List Nat :=
  MAGIC_STRING ++ toLe32 VERSION ++ [(hintBytesOf hint).length] ++ hintBytesOf hint

/-- Splitting of a byte list into chunks of `c` bytes (the last one
shorter), as `slice::chunks(c)` (lib.rs line 148) and the streaming read
loop produce. Fuel-indexed structural recursion; `c = 0` (which panics in
Rust and never occurs, the chunk sizes being ≥ 128 MiB) returns `[]`. -/
def chunksOfAux (c : Nat) : Nat → List Nat → List (List Nat)
  | 0, _ => []
  | _ + 1, [] => []
  | fuel + 1, l => l.take c :: chunksOfAux c fuel (l.drop c)

/-- Chunk splitting with adequate fuel. -/
def chunksOf (c : Nat) (l : List Nat) : List (List Nat) :=
  chunksOfAux c l.length l

/-- On-disk frame of one encrypted chunk, lib.rs lines 168-172 and 211-215:
nonce, ciphertext length as big-endian `u32` (`encrypted.len() as u32`,
hence the modular reduction), ciphertext with tag. -/
def frameBytes (nonce ct : List Nat) : List Nat :=
  nonce ++ toBe32 (ct.length % 4294967296) ++ ct

/-- Frames written for a list of plaintext chunks, the i-th chunk sealed
under the (start+i)-th freshly generated nonce, in chunk order — the
in-memory parallel encrypt pass of lib.rs lines 145-172 (rayon's indexed
`collect` preserves submission order). -/
def framesFrom (key : List Nat) (ns : Nat → List Nat) : Nat → List (List Nat) → List Nat
  | _, [] => []
  | i, ch :: rest =>
    frameBytes (ns i) (sealA key (ns i) ch) ++ framesFrom key ns (i + 1) rest

/-- Nonce/ciphertext pairs produced for a chunk list, matching the frames
of `framesFrom` (the `chunks`/`nonces` vectors of the source zipped). -/
def sealedFrames (key : List Nat) (ns : Nat → List Nat) : Nat → List (List Nat) → List (List Nat × List Nat)
  | _, [] => []
  | i, ch :: rest => (ns i, sealA key (ns i) ch) :: sealedFrames key ns (i + 1) rest

/-- Byte encoding of a list of (nonce, ciphertext) frames. -/
def encodeFrames (fs : List (List Nat × List Nat)) : List Nat :=
  (fs.map (fun p => frameBytes p.1 p.2)).flatten

/-- Streaming batched encrypt loop of lib.rs lines 177-216: repeatedly read
up to `batch` chunks of `csize` bytes (a full `read` except at EOF, as on a
regular file), generate one fresh nonce per chunk on the reading thread,
seal the batch in parallel, write the frames in read order. `i` is the index
of the next `generate_nonce` call. Fuel-indexed; with `batch = 0` the inner
`for` reads nothing and the loop exits with an empty body, as in the source
(the tuner in fact never returns 0). -/
def streamLoopAux (key : List Nat) (ns : Nat → List Nat) (csize batch : Nat) :
    Nat → Nat → List Nat → List Nat
  | 0, _, _ => []
  | _ + 1, _, [] => []
  | fuel + 1, i, rem =>
    if batch = 0 then []
    else
      let cs := chunksOf csize (rem.take (batch * csize))
      framesFrom key ns i cs ++
        streamLoopAux key ns csize batch fuel (i + cs.length) (rem.drop (batch * csize))

/-- Streaming batched encrypt loop with adequate fuel. -/
def streamLoop (key : List Nat) (ns : Nat → List Nat) (csize batch i : Nat) (rem : List Nat) : List Nat :=
  streamLoopAux key ns csize batch rem.length i rem

/-- Core of `encrypt_file_internal`, lib.rs lines 94-221: write the header,
then pick the body layout from the plaintext size — single shot (one nonce,
one sealed blob, no length prefix) when it fits in one chunk, an in-memory
parallel pass of frames up to the parallel threshold, and the streaming
batched loop above it. `ns` is the CSPRNG nonce stream. -/
def encrypt_file_internal (input password : List Nat) (hint : Option (List Nat))
    (is_mobile : Bool) (cpu_cores : Nat) (ns : Nat → List Nat) : List Nat :=
  let chunk_size := get_chunk_size is_mobile
  let parallel_threshold := get_parallel_batch_threshold is_mobile
  let batch_size := get_parallel_batch_size cpu_cores is_mobile
  let key := derive_key password
  headerOf hint ++
    (if input.length ≤ chunk_size then
      ns 0 ++ sealA key (ns 0) input
    else if input.length ≤ parallel_threshold then
      framesFrom key ns 0 (chunksOf chunk_size input)
    else
      streamLoop key ns chunk_size batch_size 0 input)

/-- FFI wrapper `encrypt_file`, lib.rs lines 61-92, with the file system
elided: paths are replaced by the input bytes and the produced container
bytes, and the nullable `hint_ptr` by an optional NUL-free byte sequence
run through `CStr::to_str().ok()`. Returns the status code and the bytes
written to the output path. -/
def encrypt_file (input password : List Nat) (hintCStr : Option (List Nat))
    (is_mobile : Bool) (cpu_cores : Nat) (ns : Nat → List Nat) : Int × List Nat :=
  let hint := match hintCStr with
    | none => none
    | some bs => cstrToStr bs
  (0, encrypt_file_internal input password hint is_mobile cpu_cores ns)

/-- Header parse shared verbatim by `decrypt_file_internal` (lib.rs lines
263-286) and `decrypt_file_to_memory_internal` (lines 452-475): read and
check the 10-byte magic, read the version little-endian and reject any
value other than `VERSION`, read `hint_len`, read the hint bytes. Returns
the hint and the remaining encrypted body (the source equivalently
computes `encrypted_data_start = HEADER_SIZE + 1 + hint_len` and seeks).
Each failing `read_exact` surfaces as `unexpectedEof`. -/
def parseHeaderChecked (file : List Nat) : Except Err (List Nat × List Nat) :=
  if file.length < 10 then .error .unexpectedEof
  else if file.take 10 ≠ MAGIC_STRING then .error .invalidFormat
  else if file.length < HEADER_SIZE then .error .unexpectedEof
  else if fromLe32 ((file.drop 10).take 4) ≠ VERSION then .error .unsupportedVersion
  else if file.length < HEADER_SIZE + 1 then .error .unexpectedEof
  else
    let hintLen := (file.drop HEADER_SIZE).headD 0
    if (file.drop (HEADER_SIZE + 1)).length < hintLen then .error .unexpectedEof
    else .ok ((file.drop (HEADER_SIZE + 1)).take hintLen, (file.drop (HEADER_SIZE + 1)).drop hintLen)

/-- Frame-reading loop of the in-memory multi-chunk decrypt paths, lib.rs
lines 317-335 and 504-522: a failed 12-byte nonce read is a clean break, a
failed 4-byte length read is a clean break, and a failed ciphertext read
(`read_exact(&mut encrypted_chunk)?`) propagates the EOF error. Returns
the (nonce, ciphertext) frames in file order. Fuel-indexed structural
recursion; every caller passes fuel ≥ the byte count, which is adequate
since each step consumes at least 16 bytes. -/
def parseFramesAux : Nat → List Nat → Except Err (List (List Nat × List Nat))
  | 0, _ => .ok []
  | fuel + 1, rem =>
    if rem.length < 12 then .ok []
    else
      let nonce := rem.take 12
      let r1 := rem.drop 12
      if r1.length < 4 then .ok []
      else
        let chunkLen := fromBe32 (r1.take 4)
        let r2 := r1.drop 4
        if r2.length < chunkLen then .error .unexpectedEof
        else
          match parseFramesAux fuel (r2.drop chunkLen) with
          | .error e => .error e
          | .ok fs => .ok ((nonce, r2.take chunkLen) :: fs)

/-- Frame-reading loop with adequate fuel. -/
def parseFramesMem (rem : List Nat) : Except Err (List (List Nat × List Nat)) :=
  parseFramesAux rem.length rem

/-- Parallel `open` of a frame list, lib.rs lines 338-350 / 525-537: each
worker rebuilds the cipher from the shared key and decrypts one frame;
results are collected in submission order and any failure aborts with the
decryption error. -/
def openFrames (key : List Nat) : List (List Nat × List Nat) → Except Err (List (List Nat))
  | [] => .ok []
  | (nonce, ct) :: rest =>
    match openA key nonce ct with
    | none => .error .decryptionFailed
    | some pt =>
      match openFrames key rest with
      | .error e => .error e
      | .ok pts => .ok (pt :: pts)

/-- One batch of the streaming decrypt read loop, lib.rs lines 362-381:
read up to `b` frames; a failed `read_exact` at the nonce, at the length
prefix or at the ciphertext all break out cleanly (a failing `read_exact`
consumes the remaining bytes, leaving the reader at EOF, hence the `[]`
rest in those cases). Returns the frames read and the unconsumed rest. -/
def readBatch : Nat → List Nat → List (List Nat × List Nat) × List Nat
  | 0, rem => ([], rem)
  | b + 1, rem =>
    if rem.length < 12 then ([], [])
    else
      let nonce := rem.take 12
      let r1 := rem.drop 12
      if r1.length < 4 then ([], [])
      else
        let chunkLen := fromBe32 (r1.take 4)
        let r2 := r1.drop 4
        if r2.length < chunkLen then ([], [])
        else
          let (fs, rest) := readBatch b (r2.drop chunkLen)
          ((nonce, r2.take chunkLen) :: fs, rest)

/-- Streaming batched decrypt loop of lib.rs lines 358-405: read a batch of
frames, stop cleanly when the batch is empty, otherwise decrypt the batch
in parallel (order-preserving collect), append the plaintexts in frame
order, and continue. Fuel-indexed; one byte of fuel per outer iteration is
adequate since a non-empty batch consumes at least 16 bytes. -/
def streamDecryptAux (key : List Nat) (batch : Nat) : Nat → List Nat → Except Err (List Nat)
  | 0, _ => .ok []
  | fuel + 1, rem =>
    match readBatch batch rem with
    | ([], _) => .ok []
    | (f :: fs, rest) =>
      match openFrames key (f :: fs) with
      | .error e => .error e
      | .ok pts =>
        match streamDecryptAux key batch fuel rest with
        | .error e => .error e
        | .ok tailOut => .ok (pts.flatten ++ tailOut)

/-- Streaming batched decrypt loop with adequate fuel. -/
def streamDecrypt (key : List Nat) (batch : Nat) (rem : List Nat) : Except Err (List Nat) :=
  streamDecryptAux key batch rem.length rem

/-- Core of `decrypt_file_internal`, lib.rs lines 250-409: parse and check
the header, detect single-shot by peeking the 12-byte nonce and comparing
the remaining body against `chunk_size + TAG_SIZE` (then seeking back);
single-shot opens the rest as one blob, a body up to the parallel
threshold is read and decrypted with the in-memory frame loop, and a
larger body with the streaming batched loop. Returns the bytes written to
the output path. -/
def decrypt_file_internal (file password : List Nat) (is_mobile : Bool) (cpu_cores : Nat) :
    Except Err (List Nat) :=
  let chunk_size := get_chunk_size is_mobile
  let parallel_threshold := get_parallel_batch_threshold is_mobile
  let batch_size := get_parallel_batch_size cpu_cores is_mobile
  match parseHeaderChecked file with
  | .error e => .error e
  | .ok (_hint, body) =>
    let key := derive_key password
    if body.length < NONCE_SIZE then .error .unexpectedEof
    else if body.length - NONCE_SIZE ≤ chunk_size + TAG_SIZE then
      match openA key (body.take NONCE_SIZE) (body.drop NONCE_SIZE) with
      | none => .error .decryptionFailed
      | some pt => .ok pt
    else if body.length ≤ parallel_threshold then
      match parseFramesMem body with
      | .error e => .error e
      | .ok fs =>
        match openFrames key fs with
        | .error e => .error e
        | .ok pts => .ok pts.flatten
    else
      streamDecrypt key batch_size body

/-- Core of `decrypt_file_to_memory_internal`, lib.rs lines 441-546: same
header parse and single-shot detection as `decrypt_file_internal`, but the
multi-chunk case always uses the in-memory frame loop (the parallel
threshold and core count are read and ignored), and the result is
returned as one buffer. -/
def decrypt_file_to_memory_internal (file password : List Nat) (is_mobile : Bool)
    (_cpu_cores : Nat) : Except Err (List Nat) :=
  let chunk_size := get_chunk_size is_mobile
  match parseHeaderChecked file with
  | .error e => .error e
  | .ok (_hint, body) =>
    let key := derive_key password
    if body.length < NONCE_SIZE then .error .unexpectedEof
    else if body.length - NONCE_SIZE ≤ chunk_size + TAG_SIZE then
      match openA key (body.take NONCE_SIZE) (body.drop NONCE_SIZE) with
      | none => .error .decryptionFailed
      | some pt => .ok pt
    else
      match parseFramesMem body with
      | .error e => .error e
      | .ok fs =>
        match openFrames key fs with
        | .error e => .error e
        | .ok pts => .ok pts.flatten

/-- Core of `get_hint_from_file_internal`, lib.rs lines 573-593: read and
check the magic, read the 4 version bytes (the value is not checked), read
`hint_len`, read and return the hint bytes. No password is taken and no
key is derived. -/
def get_hint_from_file_internal (file : List Nat) : Except Err (List Nat) :=
  if file.length < 10 then .error .unexpectedEof
  else if file.take 10 ≠ MAGIC_STRING then .error .invalidFormat
  else if file.length < HEADER_SIZE then .error .unexpectedEof
  else if file.length < HEADER_SIZE + 1 then .error .unexpectedEof
  else
    let hintLen := (file.drop HEADER_SIZE).headD 0
    if (file.drop (HEADER_SIZE + 1)).length < hintLen then .error .unexpectedEof
    else .ok ((file.drop (HEADER_SIZE + 1)).take hintLen)

/-- FFI buffer contract of `encrypt_data`, lib.rs lines 721-757, with the
raw pointers modelled as values: `outIsNull` is whether `output_ptr` is
null, the returned triple is the status code, the value stored through
`output_len` (`none` when the cell is never written) and the bytes copied
through `output_ptr` (`none` when no copy happens). Key setup from a
32-byte digest cannot fail, so the `-1` branch is unreachable. -/
def encrypt_data (data password nonce : List Nat) (outIsNull : Bool) :
    Int × Option Nat × Option (List Nat) :=
  let encrypted := sealA (derive_key password) nonce data
  (0, some encrypted.length, if outIsNull then none else some encrypted)

/-- FFI buffer contract of `decrypt_data`, lib.rs lines 759-795, modelled
like `encrypt_data`; a GCM failure returns `-2` before either cell is
written. -/
def decrypt_data (encrypted password nonce : List Nat) (outIsNull : Bool) :
    Int × Option Nat × Option (List Nat) :=
  match openA (derive_key password) nonce encrypted with
  | none => (-2, none, none)
  | some d => (0, some d.length, if outIsNull then none else some d)

/-- FFI wrapper of `decrypt_file_to_memory`, lib.rs lines 411-439: on
internal success the length cell is always written and the bytes are
copied only through a non-null pointer; on failure `-2` is returned with
neither written. -/
def decrypt_file_to_memory (file password : List Nat) (is_mobile : Bool) (cpu_cores : Nat)
    (outIsNull : Bool) : Int × Option Nat × Option (List Nat) :=
  match decrypt_file_to_memory_internal file password is_mobile cpu_cores with
  | .error _ => (-2, none, none)
  | .ok data => (0, some data.length, if outIsNull then none else some data)

/-- FFI wrapper of `get_hint_from_file`, lib.rs lines 548-571, modelled
like `decrypt_file_to_memory`. -/
def get_hint_from_file (file : List Nat) (outIsNull : Bool) :
    Int × Option Nat × Option (List Nat) :=
  match get_hint_from_file_internal file with
  | .error _ => (-2, none, none)
  | .ok hintBytes => (0, some hintBytes.length, if outIsNull then none else some hintBytes)

/-- Per-chunk sealing of `encrypt_data_parallel`, lib.rs lines 621-634:
chunk `i` is sealed under the 12-byte slice at offset `12 * i` of the flat
nonce buffer; rayon's indexed collect keeps chunk order. -/
def sealChunksIdx (key nonces : List Nat) : Nat → List (List Nat) → List (List Nat)
  | _, [] => []
  | i, ch :: rest =>
    sealA key ((nonces.drop (12 * i)).take 12) ch :: sealChunksIdx key nonces (i + 1) rest

/-- Per-chunk opening of `decrypt_data_parallel`, lib.rs lines 684-697. -/
def openChunksIdx (key nonces : List Nat) : Nat → List (List Nat) → List (Option (List Nat))
  | _, [] => []
  | i, ch :: rest =>
    openA key ((nonces.drop (12 * i)).take 12) ch :: openChunksIdx key nonces (i + 1) rest

/-- FFI contract of `encrypt_data_parallel`, lib.rs lines 595-656:
`outIsNull` lists which per-chunk output pointers are null. On success the
per-chunk length cells are all written (`some` of the list of lengths) and
each non-null output pointer receives exactly its chunk's bytes. Sealing
cannot fail, so the error branch is unreachable. -/
def encrypt_data_parallel (chunks : List (List Nat)) (password nonces : List Nat)
    (outIsNull : List Bool) : Int × Option (List Nat) × List (Option (List Nat)) :=
  let es := sealChunksIdx (derive_key password) nonces 0 chunks
  (0, some (es.map List.length),
    es.zipWith (fun e isNull => if isNull then none else some e) outIsNull)

/-- FFI contract of `decrypt_data_parallel`, lib.rs lines 658-719: if any
chunk fails to authenticate the call returns `-2` and no cell is written;
otherwise all length cells are written and non-null output pointers
receive their plaintexts. -/
def decrypt_data_parallel (chunks : List (List Nat)) (password nonces : List Nat)
    (outIsNull : List Bool) : Int × Option (List Nat) × List (Option (List Nat)) :=
  let rs := openChunksIdx (derive_key password) nonces 0 chunks
  if rs.any (fun r => r.isNone) then (-2, none, chunks.map (fun _ => none))
  else
    let ds := rs.reduceOption
    (0, some (ds.map List.length),
      ds.zipWith (fun d isNull => if isNull then none else some d) outIsNull)

theorem tagOf_length (key nonce pt : List Nat) : (tagOf key nonce pt).length = 16 := by
  simp [tagOf]

theorem sealA_length (key nonce pt : List Nat) : (sealA key nonce pt).length = pt.length + 16 := by
  simp [sealA, tagOf_length]

theorem openA_sealA (key nonce pt : List Nat) : openA key nonce (sealA key nonce pt) = some pt := by
  have htag : (tagOf key nonce pt).length = 16 := tagOf_length key nonce pt
  have hlen : (sealA key nonce pt).length = pt.length + 16 := sealA_length key nonce pt
  unfold openA
  rw [hlen]
  rw [if_neg (by omega)]
  have h2 : pt.length + 16 - 16 = pt.length := by omega
  show (if (sealA key nonce pt).drop (pt.length + 16 - 16)
        = tagOf key nonce ((sealA key nonce pt).take (pt.length + 16 - 16))
      then some ((sealA key nonce pt).take (pt.length + 16 - 16)) else none) = some pt
  rw [h2]
  have ht : (sealA key nonce pt).take pt.length = pt := List.take_left' rfl
  have hd : (sealA key nonce pt).drop pt.length = tagOf key nonce pt := List.drop_left' rfl
  rw [ht, hd, if_pos rfl]

theorem openA_length (key nonce c pt : List Nat) (h : openA key nonce c = some pt) :
    pt.length = c.length - 16 := by
  unfold openA at h
  by_cases h16 : c.length < 16
  · rw [if_pos h16] at h; exact absurd h (by simp)
  · rw [if_neg h16] at h
    by_cases htag : c.drop (c.length - 16) = tagOf key nonce (c.take (c.length - 16))
    · simp only [htag, if_pos rfl] at h
      have : pt = c.take (c.length - 16) := by
        cases h; rfl
      subst this
      simp [List.length_take]
    · rw [if_neg htag] at h; exact absurd h (by simp)

theorem fromBe32_toBe32 (n : Nat) (h : n < 4294967296) : fromBe32 (toBe32 n) = n := by
  simp only [toBe32, fromBe32]
  omega

theorem toBe32_length (n : Nat) : (toBe32 n).length = 4 := by simp [toBe32]

theorem fromLe32_version : fromLe32 (toLe32 VERSION) = VERSION := by decide

theorem get_parallel_batch_size_pos (cpu_cores : Nat) (is_mobile : Bool) :
    1 ≤ get_parallel_batch_size cpu_cores is_mobile := by
  unfold get_parallel_batch_size
  cases is_mobile <;> simp

theorem round_mul_half (c : Nat) : (round ((c : ℚ) * (1 / 2))).toNat = (c + 1) / 2 := by
  have h1 : (c : ℚ) * (1 / 2) + 1 / 2 = ((c + 1 : ℕ) : ℚ) / ((2 : ℕ) : ℚ) := by
    push_cast; ring
  rw [round_eq, h1, Rat.floor_natCast_div_natCast]
  omega

theorem round_mul_threeQuarters (c : Nat) :
    (round ((c : ℚ) * (3 / 4))).toNat = (3 * c + 2) / 4 := by
  have h1 : (c : ℚ) * (3 / 4) + 1 / 2 = ((3 * c + 2 : ℕ) : ℚ) / ((4 : ℕ) : ℚ) := by
    push_cast; ring
  rw [round_eq, h1, Rat.floor_natCast_div_natCast]
  omega

theorem chunksOfAux_succ_cons (c fuel : Nat) (a : Nat) (t : List Nat) :
    chunksOfAux c (fuel + 1) (a :: t) = (a :: t).take c :: chunksOfAux c fuel ((a :: t).drop c) := rfl

theorem chunksOfAux_nil (c fuel : Nat) : chunksOfAux c fuel [] = [] := by
  cases fuel <;> rfl

theorem chunksOfAux_irrel (c : Nat) (hc : 0 < c) :
    ∀ (f g : Nat) (l : List Nat), l.length ≤ f → l.length ≤ g →
      chunksOfAux c f l = chunksOfAux c g l := by
  intro f
  induction f with
  | zero =>
    intro g l hf _
    have hl : l = [] := List.length_eq_zero.mp (Nat.le_zero.mp hf)
    subst hl
    rw [chunksOfAux_nil, chunksOfAux_nil]
  | succ f ih =>
    intro g l hf hg
    cases l with
    | nil => rw [chunksOfAux_nil, chunksOfAux_nil]
    | cons a t =>
      cases g with
      | zero => simp at hg
      | succ g' =>
        rw [chunksOfAux_succ_cons, chunksOfAux_succ_cons]
        congr 1
        apply ih
        · simp only [List.length_drop, List.length_cons] at hf ⊢; omega
        · simp only [List.length_drop, List.length_cons] at hg ⊢; omega

theorem chunksOf_nil (c : Nat) : chunksOf c [] = [] := rfl

theorem chunksOf_cons_step (c : Nat) (hc : 0 < c) (l : List Nat) (hl : l ≠ []) :
    chunksOf c l = l.take c :: chunksOf c (l.drop c) := by
  cases l with
  | nil => exact absurd rfl hl
  | cons a t =>
    show chunksOfAux c (t.length + 1) (a :: t) = _
    rw [chunksOfAux_succ_cons]
    congr 1
    apply chunksOfAux_irrel c hc
    · simp; omega
    · exact le_rfl

theorem chunksOfAux_flatten (c : Nat) (hc : 0 < c) :
    ∀ (f : Nat) (l : List Nat), l.length ≤ f → (chunksOfAux c f l).flatten = l := by
  intro f
  induction f with
  | zero =>
    intro l hf
    have hl : l = [] := List.length_eq_zero.mp (Nat.le_zero.mp hf)
    subst hl; rfl
  | succ f ih =>
    intro l hf
    cases l with
    | nil => rfl
    | cons a t =>
      rw [chunksOfAux_succ_cons]
      simp only [List.flatten_cons]
      rw [ih ((a :: t).drop c) (by simp only [List.length_drop, List.length_cons] at hf ⊢; omega)]
      exact List.take_append_drop c (a :: t)

theorem chunksOf_flatten (c : Nat) (hc : 0 < c) (l : List Nat) :
    (chunksOf c l).flatten = l :=
  chunksOfAux_flatten c hc l.length l le_rfl

theorem chunksOfAux_mem_length (c : Nat) :
    ∀ (f : Nat) (l ch : List Nat), ch ∈ chunksOfAux c f l → ch.length ≤ c := by
  intro f
  induction f with
  | zero => intro l ch h; rw [show chunksOfAux c 0 l = [] from rfl] at h; simp at h
  | succ f ih =>
    intro l ch h
    cases l with
    | nil => rw [chunksOfAux_nil] at h; simp at h
    | cons a t =>
      rw [chunksOfAux_succ_cons] at h
      rcases List.mem_cons.mp h with h1 | h2
      · subst h1; exact List.length_take_le c (a :: t)
      · exact ih _ ch h2

theorem chunksOf_mem_length (c : Nat) (l ch : List Nat) (h : ch ∈ chunksOf c l) :
    ch.length ≤ c :=
  chunksOfAux_mem_length c l.length l ch h

theorem chunksOfAux_ne_nil (c : Nat) (f : Nat) (l : List Nat) (hl : l ≠ [])
    (hf : l.length ≤ f) : chunksOfAux c f l ≠ [] := by
  cases l with
  | nil => exact absurd rfl hl
  | cons a t =>
    cases f with
    | zero => simp at hf
    | succ f => rw [chunksOfAux_succ_cons]; simp

theorem chunksOf_two_le (c : Nat) (hc : 0 < c) (l : List Nat) (h : c < l.length) :
    2 ≤ (chunksOf c l).length := by
  have hl : l ≠ [] := by intro he; subst he; simp at h
  rw [chunksOf_cons_step c hc l hl]
  have hd : l.drop c ≠ [] := by
    intro he
    have := congrArg List.length he
    simp at this
    omega
  have : chunksOf c (l.drop c) ≠ [] :=
    chunksOfAux_ne_nil c (l.drop c).length (l.drop c) hd le_rfl
  have := List.length_pos.mpr this
  simp only [List.length_cons]
  omega

/-- Well-formedness of a frame list: 12-byte nonces and ciphertext lengths
representable as `u32` (as every frame written by the encoder has). -/
def WFframes (fs : List (List Nat × List Nat)) : Prop :=
  ∀ p ∈ fs, (p.1 : List Nat).length = 12 ∧ p.2.length < 4294967296

theorem frameBytes_length (nonce ct : List Nat) :
    (frameBytes nonce ct).length = nonce.length + 4 + ct.length := by
  simp [frameBytes, toBe32]; omega

theorem encodeFrames_nil : encodeFrames [] = [] := rfl

theorem encodeFrames_cons (p : List Nat × List Nat) (fs : List (List Nat × List Nat)) :
    encodeFrames (p :: fs) = frameBytes p.1 p.2 ++ encodeFrames fs := by
  simp [encodeFrames]

theorem framesFrom_eq_encode (key : List Nat) (ns : Nat → List Nat) :
    ∀ (chunks : List (List Nat)) (i : Nat),
      framesFrom key ns i chunks = encodeFrames (sealedFrames key ns i chunks) := by
  intro chunks
  induction chunks with
  | nil => intro i; rfl
  | cons ch rest ih =>
    intro i
    rw [show framesFrom key ns i (ch :: rest)
        = frameBytes (ns i) (sealA key (ns i) ch) ++ framesFrom key ns (i + 1) rest from rfl]
    rw [show sealedFrames key ns i (ch :: rest)
        = (ns i, sealA key (ns i) ch) :: sealedFrames key ns (i + 1) rest from rfl]
    rw [encodeFrames_cons, ih]

theorem sealedFrames_length (key : List Nat) (ns : Nat → List Nat) :
    ∀ (chunks : List (List Nat)) (i : Nat),
      (sealedFrames key ns i chunks).length = chunks.length := by
  intro chunks
  induction chunks with
  | nil => intro i; rfl
  | cons ch rest ih => intro i; simp [sealedFrames, ih]

theorem sealedFrames_wf (key : List Nat) (ns : Nat → List Nat)
    (hns : ∀ j, (ns j).length = 12) :
    ∀ (chunks : List (List Nat)) (i : Nat),
      (∀ ch ∈ chunks, ch.length + 16 < 4294967296) →
      WFframes (sealedFrames key ns i chunks) := by
  intro chunks
  induction chunks with
  | nil => intro i _ p hp; simp [sealedFrames] at hp
  | cons ch rest ih =>
    intro i hb p hp
    rw [show sealedFrames key ns i (ch :: rest)
        = (ns i, sealA key (ns i) ch) :: sealedFrames key ns (i + 1) rest from rfl] at hp
    rcases List.mem_cons.mp hp with h1 | h2
    · subst h1
      refine ⟨hns i, ?_⟩
      rw [sealA_length]
      exact hb ch (List.mem_cons_self ch rest)
    · exact ih (i + 1) (fun c hc => hb c (List.mem_cons_of_mem ch hc)) p h2

theorem sealedFrames_map_fst (key : List Nat) (ns : Nat → List Nat) :
    ∀ (chunks : List (List Nat)) (i : Nat),
      (sealedFrames key ns i chunks).map Prod.fst = (List.range' i chunks.length).map ns := by
  intro chunks
  induction chunks with
  | nil => intro i; rfl
  | cons ch rest ih =>
    intro i
    rw [show sealedFrames key ns i (ch :: rest)
        = (ns i, sealA key (ns i) ch) :: sealedFrames key ns (i + 1) rest from rfl]
    simp only [List.map_cons, List.length_cons, List.range'_succ, ih]

theorem openFrames_sealedFrames (key : List Nat) (ns : Nat → List Nat) :
    ∀ (chunks : List (List Nat)) (i : Nat),
      openFrames key (sealedFrames key ns i chunks) = .ok chunks := by
  intro chunks
  induction chunks with
  | nil => intro i; rfl
  | cons ch rest ih =>
    intro i
    rw [show sealedFrames key ns i (ch :: rest)
        = (ns i, sealA key (ns i) ch) :: sealedFrames key ns (i + 1) rest from rfl]
    show (match openA key (ns i) (sealA key (ns i) ch) with
      | none => Except.error Err.decryptionFailed
      | some pt =>
        match openFrames key (sealedFrames key ns (i + 1) rest) with
        | .error e => .error e
        | .ok pts => .ok (pt :: pts)) = .ok (ch :: rest)
    rw [openA_sealA, ih (i + 1)]

theorem framesFrom_length (key : List Nat) (ns : Nat → List Nat)
    (hns : ∀ j, (ns j).length = 12) :
    ∀ (chunks : List (List Nat)) (i : Nat),
      (framesFrom key ns i chunks).length = (chunks.map List.length).sum + 32 * chunks.length := by
  intro chunks
  induction chunks with
  | nil => intro i; rfl
  | cons ch rest ih =>
    intro i
    rw [show framesFrom key ns i (ch :: rest)
        = frameBytes (ns i) (sealA key (ns i) ch) ++ framesFrom key ns (i + 1) rest from rfl]
    simp only [List.length_append, frameBytes_length, sealA_length, hns i, ih (i + 1),
      List.map_cons, List.sum_cons, List.length_cons]
    omega

theorem parseFramesAux_zero (rem : List Nat) : parseFramesAux 0 rem = .ok [] := rfl

theorem parseFramesAux_short (fuel : Nat) (rem : List Nat) (h : rem.length < 12) :
    parseFramesAux fuel rem = .ok [] := by
  cases fuel with
  | zero => rfl
  | succ f => simp only [parseFramesAux, h, if_true]

theorem parseFramesAux_irrel :
    ∀ (f g : Nat) (rem : List Nat), rem.length ≤ f → rem.length ≤ g →
      parseFramesAux f rem = parseFramesAux g rem := by
  intro f
  induction f with
  | zero =>
    intro g rem hf _
    have : rem.length < 12 := by omega
    rw [parseFramesAux_short 0 rem this, parseFramesAux_short g rem this]
  | succ f ih =>
    intro g rem hf hg
    by_cases h12 : rem.length < 12
    · rw [parseFramesAux_short (f + 1) rem h12, parseFramesAux_short g rem h12]
    · cases g with
      | zero => omega
      | succ g' =>
        simp only [parseFramesAux, h12, if_false]
        by_cases h4 : (rem.drop 12).length < 4
        · simp only [h4, if_true]
        · simp only [h4, if_false]
          by_cases hlen : ((rem.drop 12).drop 4).length < fromBe32 ((rem.drop 12).take 4)
          · simp only [hlen, if_true]
          · simp only [hlen, if_false]
            rw [ih g' (((rem.drop 12).drop 4).drop (fromBe32 ((rem.drop 12).take 4)))
              (by simp at hf ⊢; omega) (by simp at hg ⊢; omega)]

theorem parseFramesMem_short (rem : List Nat) (h : rem.length < 12) :
    parseFramesMem rem = .ok [] :=
  parseFramesAux_short rem.length rem h

theorem parseFramesMem_nonce_short (n u : List Nat) (hn : n.length = 12) (hu : u.length < 4) :
    parseFramesMem (n ++ u) = .ok [] := by
  unfold parseFramesMem
  have hl : (n ++ u).length = (11 + u.length) + 1 := by simp [hn]; omega
  rw [hl]
  have c1 : ¬ ((n ++ u).length < 12) := by simp [hn]
  have h2 : (n ++ u).drop 12 = u := List.drop_left' hn
  simp only [parseFramesAux, c1, if_false, h2, if_pos hu]

theorem parseFramesMem_trunc (n v : List Nat) (L : Nat) (hn : n.length = 12)
    (hL : L < 4294967296) (hv : v.length < L) :
    parseFramesMem (n ++ (toBe32 L ++ v)) = .error .unexpectedEof := by
  unfold parseFramesMem
  have hl : (n ++ (toBe32 L ++ v)).length = (15 + v.length) + 1 := by simp [hn, toBe32]; omega
  rw [hl]
  have c1 : ¬ ((n ++ (toBe32 L ++ v)).length < 12) := by simp [hn, toBe32]
  have h2 : (n ++ (toBe32 L ++ v)).drop 12 = toBe32 L ++ v := List.drop_left' hn
  have c2 : ¬ ((toBe32 L ++ v).length < 4) := by simp [toBe32]
  have h3 : (toBe32 L ++ v).take 4 = toBe32 L := List.take_left' (toBe32_length L)
  have h4 : (toBe32 L ++ v).drop 4 = v := List.drop_left' (toBe32_length L)
  simp only [parseFramesAux, c1, if_false, h2, c2, h3, h4, fromBe32_toBe32 L hL, if_pos hv]

theorem parse_encode_withTail (t : List Nat) :
    ∀ (fs : List (List Nat × List Nat)) (fuel : Nat), WFframes fs →
      (encodeFrames fs ++ t).length ≤ fuel →
      parseFramesAux fuel (encodeFrames fs ++ t) =
        match parseFramesMem t with
        | .error e => .error e
        | .ok gs => .ok (fs ++ gs) := by
  intro fs
  induction fs with
  | nil =>
    intro fuel _ hf
    rw [encodeFrames_nil, List.nil_append] at hf ⊢
    rw [parseFramesAux_irrel fuel t.length t hf le_rfl]
    show parseFramesMem t = _
    cases parseFramesMem t <;> rfl
  | cons p fs ih =>
    obtain ⟨n, ct⟩ := p
    intro fuel hwf hf
    obtain ⟨hn, hct⟩ := hwf (n, ct) (List.mem_cons_self _ _)
    have hwf' : WFframes fs := fun q hq => hwf q (List.mem_cons_of_mem _ hq)
    have hmod : ct.length % 4294967296 = ct.length := Nat.mod_eq_of_lt hct
    have hassoc : encodeFrames ((n, ct) :: fs) ++ t
        = n ++ (toBe32 ct.length ++ (ct ++ (encodeFrames fs ++ t))) := by
      rw [encodeFrames_cons]
      show (frameBytes n ct ++ encodeFrames fs) ++ t = _
      rw [frameBytes, hmod]
      simp [List.append_assoc]
    rw [hassoc] at hf ⊢
    have hlen : (n ++ (toBe32 ct.length ++ (ct ++ (encodeFrames fs ++ t)))).length
        = 16 + ct.length + (encodeFrames fs ++ t).length := by
      simp [hn, toBe32]; omega
    cases fuel with
    | zero => rw [hlen] at hf; omega
    | succ f =>
      have c1 : ¬ ((n ++ (toBe32 ct.length ++ (ct ++ (encodeFrames fs ++ t)))).length < 12) := by
        rw [hlen]; omega
      have h2 : (n ++ (toBe32 ct.length ++ (ct ++ (encodeFrames fs ++ t)))).drop 12
          = toBe32 ct.length ++ (ct ++ (encodeFrames fs ++ t)) := List.drop_left' hn
      have h2t : (n ++ (toBe32 ct.length ++ (ct ++ (encodeFrames fs ++ t)))).take 12 = n :=
        List.take_left' hn
      have c2 : ¬ ((toBe32 ct.length ++ (ct ++ (encodeFrames fs ++ t))).length < 4) := by
        simp [toBe32]
      have h3 : (toBe32 ct.length ++ (ct ++ (encodeFrames fs ++ t))).take 4 = toBe32 ct.length :=
        List.take_left' (toBe32_length _)
      have h4 : (toBe32 ct.length ++ (ct ++ (encodeFrames fs ++ t))).drop 4
          = ct ++ (encodeFrames fs ++ t) := List.drop_left' (toBe32_length _)
      have c3 : ¬ ((ct ++ (encodeFrames fs ++ t)).length < ct.length) := by simp
      have h5 : (ct ++ (encodeFrames fs ++ t)).drop ct.length = encodeFrames fs ++ t :=
        List.drop_left' rfl
      have h6 : (ct ++ (encodeFrames fs ++ t)).take ct.length = ct := List.take_left' rfl
      have hrec : parseFramesAux f (encodeFrames fs ++ t)
          = match parseFramesMem t with
            | .error e => .error e
            | .ok gs => .ok (fs ++ gs) := by
        apply ih f hwf'
        rw [hlen] at hf
        omega
      simp only [parseFramesAux, c1, if_false, h2, h2t, c2, if_true, h3, h4,
        fromBe32_toBe32 ct.length hct, c3, h5, h6, hrec]
      cases parseFramesMem t <;> rfl

theorem parse_encode (fs : List (List Nat × List Nat)) (hwf : WFframes fs) :
    parseFramesMem (encodeFrames fs) = .ok fs := by
  unfold parseFramesMem
  have h := parse_encode_withTail [] fs (encodeFrames fs ++ []).length hwf le_rfl
  rw [List.append_nil] at h
  rw [h, parseFramesMem_short [] (by simp)]
  simp

theorem sealedFrames_take (key : List Nat) (ns : Nat → List Nat) :
    ∀ (b : Nat) (chunks : List (List Nat)) (i : Nat),
      (sealedFrames key ns i chunks).take b = sealedFrames key ns i (chunks.take b) := by
  intro b
  induction b with
  | zero => intro chunks i; rfl
  | succ b ih =>
    intro chunks i
    cases chunks with
    | nil => rfl
    | cons c rest =>
      rw [show sealedFrames key ns i (c :: rest)
          = (ns i, sealA key (ns i) c) :: sealedFrames key ns (i + 1) rest from rfl]
      rw [List.take_succ_cons, List.take_succ_cons, ih rest (i + 1)]
      rfl

theorem sealedFrames_drop (key : List Nat) (ns : Nat → List Nat) :
    ∀ (b : Nat) (chunks : List (List Nat)) (i : Nat),
      (sealedFrames key ns i chunks).drop b
        = sealedFrames key ns (i + min b chunks.length) (chunks.drop b) := by
  intro b
  induction b with
  | zero => intro chunks i; simp
  | succ b ih =>
    intro chunks i
    cases chunks with
    | nil => simp [show sealedFrames key ns i ([] : List (List Nat)) = [] from rfl]
    | cons c rest =>
      rw [show sealedFrames key ns i (c :: rest)
          = (ns i, sealA key (ns i) c) :: sealedFrames key ns (i + 1) rest from rfl]
      rw [List.drop_succ_cons, List.drop_succ_cons, ih rest (i + 1)]
      congr 1
      simp [Nat.succ_min_succ]
      omega

theorem readBatch_encode :
    ∀ (b : Nat) (fs : List (List Nat × List Nat)), WFframes fs →
      readBatch b (encodeFrames fs) = (fs.take b, encodeFrames (fs.drop b)) := by
  intro b
  induction b with
  | zero => intro fs _; rfl
  | succ b ih =>
    intro fs hwf
    cases fs with
    | nil => rw [encodeFrames_nil]; rfl
    | cons p fs' =>
      obtain ⟨n, ct⟩ := p
      obtain ⟨hn, hct⟩ := hwf (n, ct) (List.mem_cons_self _ _)
      have hwf' : WFframes fs' := fun q hq => hwf q (List.mem_cons_of_mem _ hq)
      have hmod : ct.length % 4294967296 = ct.length := Nat.mod_eq_of_lt hct
      have hassoc : encodeFrames ((n, ct) :: fs')
          = n ++ (toBe32 ct.length ++ (ct ++ encodeFrames fs')) := by
        rw [encodeFrames_cons]
        show frameBytes n ct ++ encodeFrames fs' = _
        rw [frameBytes, hmod]
        simp [List.append_assoc]
      rw [hassoc]
      have c1 : ¬ ((n ++ (toBe32 ct.length ++ (ct ++ encodeFrames fs'))).length < 12) := by
        simp [hn, toBe32]
      have h2t : (n ++ (toBe32 ct.length ++ (ct ++ encodeFrames fs'))).take 12 = n :=
        List.take_left' hn
      have h2 : (n ++ (toBe32 ct.length ++ (ct ++ encodeFrames fs'))).drop 12
          = toBe32 ct.length ++ (ct ++ encodeFrames fs') := List.drop_left' hn
      have c2 : ¬ ((toBe32 ct.length ++ (ct ++ encodeFrames fs')).length < 4) := by
        simp [toBe32]
      have h3 : (toBe32 ct.length ++ (ct ++ encodeFrames fs')).take 4 = toBe32 ct.length :=
        List.take_left' (toBe32_length _)
      have h4 : (toBe32 ct.length ++ (ct ++ encodeFrames fs')).drop 4 = ct ++ encodeFrames fs' :=
        List.drop_left' (toBe32_length _)
      have c3 : ¬ ((ct ++ encodeFrames fs').length < ct.length) := by simp
      have h5 : (ct ++ encodeFrames fs').drop ct.length = encodeFrames fs' := List.drop_left' rfl
      have h6 : (ct ++ encodeFrames fs').take ct.length = ct := List.take_left' rfl
      simp only [readBatch, c1, if_false, h2t, h2, c2, h3, h4,
        fromBe32_toBe32 ct.length hct, c3, h5, h6, ih fs' hwf']
      rw [List.take_succ_cons, List.drop_succ_cons]

theorem framesFrom_append (key : List Nat) (ns : Nat → List Nat) :
    ∀ (xs ys : List (List Nat)) (i : Nat),
      framesFrom key ns i (xs ++ ys)
        = framesFrom key ns i xs ++ framesFrom key ns (i + xs.length) ys := by
  intro xs
  induction xs with
  | nil => intro ys i; simp [framesFrom]
  | cons x xs ih =>
    intro ys i
    rw [List.cons_append]
    rw [show framesFrom key ns i (x :: (xs ++ ys))
        = frameBytes (ns i) (sealA key (ns i) x) ++ framesFrom key ns (i + 1) (xs ++ ys) from rfl]
    rw [show framesFrom key ns i (x :: xs)
        = frameBytes (ns i) (sealA key (ns i) x) ++ framesFrom key ns (i + 1) xs from rfl]
    rw [ih ys (i + 1)]
    simp [List.append_assoc, List.length_cons]
    ring_nf

theorem streamDecryptAux_frames (key : List Nat) (ns : Nat → List Nat) (batch : Nat)
    (hns : ∀ j, (ns j).length = 12) (hb : 1 ≤ batch) :
    ∀ (fuel : Nat) (chunks : List (List Nat)) (i : Nat),
      chunks.length ≤ fuel →
      (∀ ch ∈ chunks, ch.length + 16 < 4294967296) →
      streamDecryptAux key batch fuel (framesFrom key ns i chunks) = .ok chunks.flatten := by
  intro fuel
  induction fuel with
  | zero =>
    intro chunks i hf _
    have hc : chunks = [] := List.length_eq_zero.mp (Nat.le_zero.mp hf)
    subst hc
    rfl
  | succ fuel ih =>
    intro chunks i hf hbound
    cases chunks with
    | nil =>
      have hrb : readBatch batch ([] : List Nat) = ([], []) := by
        cases batch with
        | zero => rfl
        | succ b => rfl
      rw [show framesFrom key ns i ([] : List (List Nat)) = [] from rfl]
      simp only [streamDecryptAux, hrb, List.flatten_nil]
    | cons c rest =>
      obtain ⟨b, rfl⟩ : ∃ b, batch = b + 1 := ⟨batch - 1, by omega⟩
      have hwf : WFframes (sealedFrames key ns i (c :: rest)) :=
        sealedFrames_wf key ns hns (c :: rest) i hbound
      have hrb : readBatch (b + 1) (framesFrom key ns i (c :: rest))
          = ((ns i, sealA key (ns i) c) :: sealedFrames key ns (i + 1) (rest.take b),
             encodeFrames (sealedFrames key ns (i + (b + 1) ⊓ (rest.length + 1))
               ((c :: rest).drop (b + 1)))) := by
        rw [framesFrom_eq_encode, readBatch_encode (b + 1) _ hwf,
          sealedFrames_take, sealedFrames_drop]
        rw [List.take_succ_cons]
        rw [show sealedFrames key ns i (c :: rest.take b)
            = (ns i, sealA key (ns i) c) :: sealedFrames key ns (i + 1) (rest.take b) from rfl]
        rw [List.length_cons]
      have hopen : openFrames key
          ((ns i, sealA key (ns i) c) :: sealedFrames key ns (i + 1) (rest.take b))
          = .ok (c :: rest.take b) := by
        rw [show (ns i, sealA key (ns i) c) :: sealedFrames key ns (i + 1) (rest.take b)
            = sealedFrames key ns i (c :: rest.take b) from rfl]
        exact openFrames_sealedFrames key ns (c :: rest.take b) i
      have hrec : streamDecryptAux key (b + 1) fuel
          (encodeFrames (sealedFrames key ns (i + (b + 1) ⊓ (rest.length + 1))
            ((c :: rest).drop (b + 1)))) = .ok ((c :: rest).drop (b + 1)).flatten := by
        rw [← framesFrom_eq_encode]
        apply ih
        · rw [List.drop_succ_cons]
          have := List.length_drop b rest
          simp only [List.length_cons] at hf
          omega
        · intro ch hch
          exact hbound ch (List.mem_of_mem_drop hch)
      simp only [streamDecryptAux, hrb, hopen, hrec]
      rw [List.drop_succ_cons]
      congr 1
      rw [show (c :: rest.take b).flatten = c ++ (rest.take b).flatten from rfl]
      rw [show (c :: rest).flatten = c ++ rest.flatten from rfl]
      rw [List.append_assoc]
      congr 1
      rw [← List.flatten_append, List.take_append_drop]

theorem streamDecrypt_frames (key : List Nat) (ns : Nat → List Nat) (batch : Nat)
    (hns : ∀ j, (ns j).length = 12) (hb : 1 ≤ batch) (chunks : List (List Nat)) (i : Nat)
    (hbound : ∀ ch ∈ chunks, ch.length + 16 < 4294967296) :
    streamDecrypt key batch (framesFrom key ns i chunks) = .ok chunks.flatten := by
  unfold streamDecrypt
  apply streamDecryptAux_frames key ns batch hns hb _ chunks i _ hbound
  rw [framesFrom_length key ns hns chunks i]
  omega

theorem chunksOf_take_mul (c : Nat) (hc : 0 < c) :
    ∀ (b : Nat) (l : List Nat), chunksOf c (l.take (b * c)) = (chunksOf c l).take b := by
  intro b
  induction b with
  | zero => intro l; simp [chunksOf_nil]
  | succ b ih =>
    intro l
    cases l with
    | nil => simp [chunksOf_nil]
    | cons a t =>
      have hne : (a :: t).take ((b + 1) * c) ≠ [] := by
        have : 0 < (b + 1) * c := by positivity
        simp [List.take_eq_nil_iff]
        omega
      rw [chunksOf_cons_step c hc _ hne, chunksOf_cons_step c hc (a :: t) (by simp)]
      rw [List.take_succ_cons]
      congr 1
      · rw [List.take_take]
        congr 1
        have : c ≤ (b + 1) * c := by nlinarith
        omega
      · rw [List.drop_take]
        have h1 : (b + 1) * c - c = b * c := by ring_nf; omega
        rw [h1, ih]

theorem chunksOf_drop_mul (c : Nat) (hc : 0 < c) :
    ∀ (b : Nat) (l : List Nat), chunksOf c (l.drop (b * c)) = (chunksOf c l).drop b := by
  intro b
  induction b with
  | zero => intro l; simp
  | succ b ih =>
    intro l
    cases l with
    | nil => simp [chunksOf_nil]
    | cons a t =>
      rw [chunksOf_cons_step c hc (a :: t) (by simp), List.drop_succ_cons]
      rw [← ih ((a :: t).drop c), List.drop_drop]
      congr 2
      ring

theorem streamLoopAux_succ_cons (key : List Nat) (ns : Nat → List Nat) (csize batch fuel i : Nat)
    (a : Nat) (t : List Nat) :
    streamLoopAux key ns csize batch (fuel + 1) i (a :: t)
      = if batch = 0 then []
        else
          framesFrom key ns i (chunksOf csize ((a :: t).take (batch * csize))) ++
            streamLoopAux key ns csize batch fuel
              (i + (chunksOf csize ((a :: t).take (batch * csize))).length)
              ((a :: t).drop (batch * csize)) := rfl

theorem streamLoopAux_frames (key : List Nat) (ns : Nat → List Nat) (csize batch : Nat)
    (hc : 0 < csize) (hb : 1 ≤ batch) :
    ∀ (fuel : Nat) (rem : List Nat) (i : Nat), rem.length ≤ fuel →
      streamLoopAux key ns csize batch fuel i rem = framesFrom key ns i (chunksOf csize rem) := by
  intro fuel
  induction fuel with
  | zero =>
    intro rem i hf
    have hr : rem = [] := List.length_eq_zero.mp (Nat.le_zero.mp hf)
    subst hr
    rfl
  | succ fuel ih =>
    intro rem i hf
    cases rem with
    | nil => rfl
    | cons a t =>
      rw [streamLoopAux_succ_cons, if_neg (by omega)]
      rw [chunksOf_take_mul csize hc batch (a :: t)]
      rw [ih ((a :: t).drop (batch * csize)) _ (by
        simp only [List.length_drop, List.length_cons] at hf ⊢
        have : 0 < batch * csize := by positivity
        omega)]
      rw [chunksOf_drop_mul csize hc batch (a :: t)]
      rw [← framesFrom_append]
      rw [List.take_append_drop]

theorem streamLoop_frames (key : List Nat) (ns : Nat → List Nat) (csize batch i : Nat)
    (rem : List Nat) (hc : 0 < csize) (hb : 1 ≤ batch) :
    streamLoop key ns csize batch i rem = framesFrom key ns i (chunksOf csize rem) :=
  streamLoopAux_frames key ns csize batch hc hb rem.length rem i le_rfl

theorem toLe32_length (n : Nat) : (toLe32 n).length = 4 := by simp [toLe32]

theorem MAGIC_STRING_length : MAGIC_STRING.length = 10 := rfl

theorem hintBytesOf_le (hint : Option (List Nat)) : (hintBytesOf hint).length ≤ 32 := by
  unfold hintBytesOf MAX_HINT_LENGTH
  exact List.length_take_le 32 _

theorem headerOf_length (hint : Option (List Nat)) :
    (headerOf hint).length = 15 + (hintBytesOf hint).length := by
  simp [headerOf, MAGIC_STRING, toLe32]
  omega

theorem parseHeaderChecked_headerOf (hint : Option (List Nat)) (body : List Nat) :
    parseHeaderChecked (headerOf hint ++ body) = .ok (hintBytesOf hint, body) := by
  have hassoc : headerOf hint ++ body
      = MAGIC_STRING ++ (toLe32 VERSION ++ ((hintBytesOf hint).length :: (hintBytesOf hint ++ body))) := by
    unfold headerOf
    simp [List.append_assoc]
  have hlen : (headerOf hint ++ body).length = 15 + (hintBytesOf hint).length + body.length := by
    simp [headerOf_length]
  have htake10 : (headerOf hint ++ body).take 10 = MAGIC_STRING := by
    rw [hassoc]; exact List.take_left' MAGIC_STRING_length
  have hdrop10 : (headerOf hint ++ body).drop 10
      = toLe32 VERSION ++ ((hintBytesOf hint).length :: (hintBytesOf hint ++ body)) := by
    rw [hassoc]; exact List.drop_left' MAGIC_STRING_length
  have hdrop14 : (headerOf hint ++ body).drop 14
      = (hintBytesOf hint).length :: (hintBytesOf hint ++ body) := by
    rw [show (14 : Nat) = 10 + 4 from rfl, ← List.drop_drop, hdrop10]
    exact List.drop_left' (toLe32_length VERSION)
  have hdrop15 : (headerOf hint ++ body).drop 15 = hintBytesOf hint ++ body := by
    rw [show (15 : Nat) = 14 + 1 from rfl, ← List.drop_drop, hdrop14]
    rfl
  unfold parseHeaderChecked HEADER_SIZE
  rw [if_neg (by omega), htake10, if_neg (by simp), if_neg (by omega)]
  rw [hdrop10]
  rw [List.take_left' (toLe32_length VERSION), fromLe32_version]
  rw [if_neg (by simp), if_neg (by omega)]
  rw [hdrop14, hdrop15]
  simp only [List.headD_cons]
  rw [if_neg (by simp)]
  rw [List.take_left' rfl, List.drop_left' rfl]

theorem get_chunk_size_pos (is_mobile : Bool) : 0 < get_chunk_size is_mobile := by
  cases is_mobile <;> decide

theorem get_chunk_size_low (is_mobile : Bool) : get_chunk_size is_mobile + 16 < 4294967296 := by
  cases is_mobile <;> decide

theorem decrypt_single_ok (P password : List Nat) (hint : Option (List Nat)) (is_mobile : Bool)
    (cpu_cores : Nat) (ns : Nat → List Nat) (hns : ∀ j, (ns j).length = 12)
    (h1 : P.length ≤ get_chunk_size is_mobile) :
    decrypt_file_internal
      (headerOf hint ++ (ns 0 ++ sealA (derive_key password) (ns 0) P))
      password is_mobile cpu_cores = .ok P := by
  have hblen : (ns 0 ++ sealA (derive_key password) (ns 0) P).length = 28 + P.length := by
    simp [sealA_length, hns 0]
    omega
  unfold decrypt_file_internal
  rw [parseHeaderChecked_headerOf]
  show (if (ns 0 ++ sealA (derive_key password) (ns 0) P).length < NONCE_SIZE then _ else _) = _
  rw [if_neg (by rw [hblen]; unfold NONCE_SIZE; omega)]
  rw [if_pos (by rw [hblen]; unfold NONCE_SIZE TAG_SIZE; omega)]
  have ht : ((ns 0 ++ sealA (derive_key password) (ns 0) P).take NONCE_SIZE) = ns 0 :=
    List.take_left' (hns 0)
  have hd : ((ns 0 ++ sealA (derive_key password) (ns 0) P).drop NONCE_SIZE)
      = sealA (derive_key password) (ns 0) P := List.drop_left' (hns 0)
  rw [ht, hd, openA_sealA]

theorem decrypt_frames_ok (P password : List Nat) (hint : Option (List Nat)) (is_mobile : Bool)
    (cpu_cores : Nat) (ns : Nat → List Nat) (hns : ∀ j, (ns j).length = 12)
    (h1 : get_chunk_size is_mobile < P.length) :
    decrypt_file_internal
      (headerOf hint ++
        framesFrom (derive_key password) ns 0 (chunksOf (get_chunk_size is_mobile) P))
      password is_mobile cpu_cores = .ok P := by
  have hcpos : 0 < get_chunk_size is_mobile := get_chunk_size_pos is_mobile
  have hflat : (chunksOf (get_chunk_size is_mobile) P).flatten = P :=
    chunksOf_flatten _ hcpos P
  have hsum : ((chunksOf (get_chunk_size is_mobile) P).map List.length).sum = P.length := by
    rw [← List.length_flatten, hflat]
  have hk2 : 2 ≤ (chunksOf (get_chunk_size is_mobile) P).length :=
    chunksOf_two_le _ hcpos P h1
  have hbound : ∀ ch ∈ chunksOf (get_chunk_size is_mobile) P, ch.length + 16 < 4294967296 := by
    intro ch hch
    have := chunksOf_mem_length _ P ch hch
    have := get_chunk_size_low is_mobile
    omega
  have hblen : (framesFrom (derive_key password) ns 0 (chunksOf (get_chunk_size is_mobile) P)).length
      = P.length + 32 * (chunksOf (get_chunk_size is_mobile) P).length := by
    rw [framesFrom_length _ ns hns _ 0, hsum]
  have hwf : WFframes (sealedFrames (derive_key password) ns 0 (chunksOf (get_chunk_size is_mobile) P)) :=
    sealedFrames_wf _ ns hns _ 0 hbound
  unfold decrypt_file_internal
  rw [parseHeaderChecked_headerOf]
  show (if (framesFrom (derive_key password) ns 0
      (chunksOf (get_chunk_size is_mobile) P)).length < NONCE_SIZE then _ else _) = _
  rw [if_neg (by rw [hblen]; unfold NONCE_SIZE; omega)]
  rw [if_neg (by rw [hblen]; unfold NONCE_SIZE TAG_SIZE; omega)]
  have hparse : parseFramesMem
      (framesFrom (derive_key password) ns 0 (chunksOf (get_chunk_size is_mobile) P))
      = .ok (sealedFrames (derive_key password) ns 0 (chunksOf (get_chunk_size is_mobile) P)) := by
    rw [framesFrom_eq_encode]
    exact parse_encode _ hwf
  by_cases hmem : (framesFrom (derive_key password) ns 0
      (chunksOf (get_chunk_size is_mobile) P)).length ≤ get_parallel_batch_threshold is_mobile
  · rw [if_pos hmem, hparse]
    show (match openFrames (derive_key password)
        (sealedFrames (derive_key password) ns 0 (chunksOf (get_chunk_size is_mobile) P)) with
      | Except.error e => Except.error e
      | Except.ok pts => Except.ok pts.flatten) = Except.ok P
    rw [openFrames_sealedFrames]
    show Except.ok (chunksOf (get_chunk_size is_mobile) P).flatten = Except.ok P
    rw [hflat]
  · rw [if_neg hmem]
    rw [streamDecrypt_frames (derive_key password) ns _ hns
      (get_parallel_batch_size_pos cpu_cores is_mobile) _ 0 hbound, hflat]

theorem roundtrip_helper (P password : List Nat) (hint : Option (List Nat)) (is_mobile : Bool)
    (cpu_cores cores' : Nat) (ns : Nat → List Nat) (hns : ∀ j, (ns j).length = 12) :
    decrypt_file_internal (encrypt_file_internal P password hint is_mobile cpu_cores ns)
      password is_mobile cores' = .ok P := by
  simp only [encrypt_file_internal]
  by_cases h1 : P.length ≤ get_chunk_size is_mobile
  · rw [if_pos h1]
    exact decrypt_single_ok P password hint is_mobile cores' ns hns h1
  · rw [if_neg h1]
    by_cases h2 : P.length ≤ get_parallel_batch_threshold is_mobile
    · rw [if_pos h2]
      exact decrypt_frames_ok P password hint is_mobile cores' ns hns (by omega)
    · rw [if_neg h2]
      rw [streamLoop_frames (derive_key password) ns _ _ 0 P (get_chunk_size_pos is_mobile)
        (get_parallel_batch_size_pos cpu_cores is_mobile)]
      exact decrypt_frames_ok P password hint is_mobile cores' ns hns (by omega)

theorem parseFramesMem_encode_withTail (fs : List (List Nat × List Nat)) (t : List Nat)
    (hwf : WFframes fs) :
    parseFramesMem (encodeFrames fs ++ t)
      = match parseFramesMem t with
        | .error e => .error e
        | .ok gs => .ok (fs ++ gs) :=
  parse_encode_withTail t fs (encodeFrames fs ++ t).length hwf le_rfl

theorem decrypt_multi_mem (password : List Nat) (hint : Option (List Nat)) (is_mobile : Bool)
    (cpu_cores : Nat) (body : List Nat)
    (h12 : ¬ body.length < 12)
    (hbig : ¬ (body.length - 12 ≤ get_chunk_size is_mobile + 16))
    (hmem : body.length ≤ get_parallel_batch_threshold is_mobile) :
    decrypt_file_internal (headerOf hint ++ body) password is_mobile cpu_cores
      = match parseFramesMem body with
        | .error e => .error e
        | .ok fs =>
          match openFrames (derive_key password) fs with
          | .error e => .error e
          | .ok pts => .ok pts.flatten := by
  unfold decrypt_file_internal
  rw [parseHeaderChecked_headerOf]
  show (if body.length < NONCE_SIZE then _ else _) = _
  rw [if_neg (show ¬ body.length < NONCE_SIZE by unfold NONCE_SIZE; exact h12)]
  rw [if_neg (show ¬ (body.length - NONCE_SIZE ≤ get_chunk_size is_mobile + TAG_SIZE) by
    unfold NONCE_SIZE TAG_SIZE; exact hbig)]
  rw [if_pos hmem]

theorem decrypt_multi_mem_ok (password : List Nat) (hint : Option (List Nat)) (is_mobile : Bool)
    (cpu_cores : Nat) (body : List Nat) (fs : List (List Nat × List Nat)) (pts : List (List Nat))
    (h12 : ¬ body.length < 12)
    (hbig : ¬ (body.length - 12 ≤ get_chunk_size is_mobile + 16))
    (hmem : body.length ≤ get_parallel_batch_threshold is_mobile)
    (hp : parseFramesMem body = .ok fs)
    (ho : openFrames (derive_key password) fs = .ok pts) :
    decrypt_file_internal (headerOf hint ++ body) password is_mobile cpu_cores
      = .ok pts.flatten := by
  rw [decrypt_multi_mem password hint is_mobile cpu_cores body h12 hbig hmem, hp]
  show (match openFrames (derive_key password) fs with
    | Except.error e => Except.error e
    | Except.ok pts => Except.ok pts.flatten) = Except.ok pts.flatten
  rw [ho]

/-- C1: for every plaintext `P`, password `K`, hint and device flags,
decrypting (with the same password and the same flags) the container
produced by `encrypt_file` succeeds and returns `P` byte-for-byte, for any
values of the per-chunk CSPRNG nonce stream. This covers all three body
layouts (single-shot, in-memory parallel, streaming batched) and both
decrypt-side body modes. -/
theorem c1_encrypt_decrypt_roundtrip (P password : List Nat) (hint : Option (List Nat))
    (is_mobile : Bool) (cpu_cores : Nat) (ns : Nat → List Nat)
    (hns : ∀ j, (ns j).length = 12) :
    decrypt_file_internal (encrypt_file_internal P password hint is_mobile cpu_cores ns)
      password is_mobile cpu_cores = .ok P :=
  roundtrip_helper P password hint is_mobile cpu_cores cpu_cores ns hns

theorem c1_encrypt_decrypt_roundtrip_witness :
    (∀ j, ((fun _ : Nat => List.replicate 12 0) j : List Nat).length = 12) ∧
    decrypt_file_internal
      (encrypt_file_internal [1, 2, 3] [7] (some [104, 105]) false 8
        (fun _ : Nat => List.replicate 12 0)) [7] false 8 = .ok [1, 2, 3] :=
  ⟨fun _ => by simp,
    c1_encrypt_decrypt_roundtrip [1, 2, 3] [7] (some [104, 105]) false 8
      (fun _ : Nat => List.replicate 12 0) (fun _ => by simp)⟩

/-- C2, counterexample: a 128 MiB + 1 byte plaintext encrypted with desktop
flags produces a single-shot container; decrypting it with mobile flags
misclassifies it as multi-chunk (its body minus the nonce exceeds the
mobile `chunk_size + 16`), reads the first four plaintext bytes `0xFF FF FF
FF` as a frame length, fails the ciphertext read, and returns the EOF
(TruncatedFrame) error instead of the plaintext — so device flags do
change decryptability, refuting the claim. -/
theorem c2_flags_counterexample :
    decrypt_file_internal
      (encrypt_file_internal (List.replicate 134217729 255) [112] none false 8
        (fun _ : Nat => List.replicate 12 0)) [112] true 8 = .error .unexpectedEof ∧
    decrypt_file_internal
      (encrypt_file_internal (List.replicate 134217729 255) [112] none false 8
        (fun _ : Nat => List.replicate 12 0)) [112] true 8
      ≠ .ok (List.replicate 134217729 255) := by
  have henc : encrypt_file_internal (List.replicate 134217729 255) [112] none false 8
      (fun _ : Nat => List.replicate 12 0)
      = headerOf none ++ (List.replicate 12 0 ++
          sealA (derive_key [112]) (List.replicate 12 0) (List.replicate 134217729 255)) := by
    simp only [encrypt_file_internal]
    rw [if_pos (by rw [List.length_replicate]; decide)]
  have hslen : (sealA (derive_key [112]) (List.replicate 12 0)
      (List.replicate 134217729 255)).length = 134217745 := by
    rw [sealA_length, List.length_replicate]
  have hsplit : sealA (derive_key [112]) (List.replicate 12 0) (List.replicate 134217729 255)
      = toBe32 4294967295 ++ (List.replicate 134217725 255 ++
          tagOf (derive_key [112]) (List.replicate 12 0) (List.replicate 134217729 255)) := by
    show List.replicate 134217729 255 ++ _ = _
    have e1 : List.replicate 134217729 (255 : Nat)
        = List.replicate 4 255 ++ List.replicate 134217725 255 := by
      rw [← List.replicate_add]
    rw [e1, show List.replicate 4 (255 : Nat) = toBe32 4294967295 from rfl, List.append_assoc]
  have hparse : parseFramesMem (List.replicate 12 0 ++
      sealA (derive_key [112]) (List.replicate 12 0) (List.replicate 134217729 255))
      = .error .unexpectedEof := by
    rw [hsplit]
    apply parseFramesMem_trunc
    · rw [List.length_replicate]
    · decide
    · rw [List.length_append, List.length_replicate, tagOf_length]; decide
  have main : decrypt_file_internal
      (encrypt_file_internal (List.replicate 134217729 255) [112] none false 8
        (fun _ : Nat => List.replicate 12 0)) [112] true 8 = .error .unexpectedEof := by
    rw [henc]
    rw [decrypt_multi_mem [112] none true 8 _
      (by rw [List.length_append, List.length_replicate, hslen]; decide)
      (by rw [List.length_append, List.length_replicate, hslen]; decide)
      (by rw [List.length_append, List.length_replicate, hslen]; decide)]
    rw [hparse]
  exact ⟨main, by rw [main]; intro h; exact Except.noConfusion h⟩

/-- C2, amended: the `cpu_cores` component of the device flags never
changes what a valid container decrypts to — for any plaintext, password,
hint, nonce stream and core counts, decrypting with any `cores'` a
container encrypted with core count `cores` yields the plaintext, provided
the `is_mobile` flag is the same on both sides. (The `is_mobile` flag, by
the counterexample, must match: it selects the chunk size the decrypter
uses to classify the body.) -/
theorem c2_flags_amended (P password : List Nat) (hint : Option (List Nat))
    (is_mobile : Bool) (cores cores' : Nat) (ns : Nat → List Nat)
    (hns : ∀ j, (ns j).length = 12) :
    decrypt_file_internal (encrypt_file_internal P password hint is_mobile cores ns)
      password is_mobile cores' = .ok P :=
  roundtrip_helper P password hint is_mobile cores cores' ns hns

theorem c2_flags_amended_witness :
    (∀ j, ((fun _ : Nat => List.replicate 12 0) j : List Nat).length = 12) ∧
    decrypt_file_internal
      (encrypt_file_internal [5, 6] [9] none true 8 (fun _ : Nat => List.replicate 12 0))
      [9] true 2 = .ok [5, 6] :=
  ⟨fun _ => by simp,
    c2_flags_amended [5, 6] [9] none true 8 2 (fun _ : Nat => List.replicate 12 0) (fun _ => by simp)⟩

/-- C3, counterexample: a mobile multi-chunk container holding one complete
valid frame followed by a 12-byte nonce and only 2 of the 4 length-prefix
bytes — EOF is reached after a nonce has been read and before the length
prefix is complete, which the claim says must fail with TruncatedFrame.
The in-memory decrypt loop instead breaks out of the loop cleanly and the
operation succeeds, returning the first frame's plaintext. -/
theorem c3_truncation_counterexample :
    decrypt_file_internal
      (headerOf none ++
        (encodeFrames [(List.replicate 12 0,
            sealA (derive_key [112]) (List.replicate 12 0) (List.replicate 134217728 0))] ++
          (List.replicate 12 1 ++ [0, 0])))
      [112] true 4 = .ok (List.replicate 134217728 0) ∧
    decrypt_file_internal
      (headerOf none ++
        (encodeFrames [(List.replicate 12 0,
            sealA (derive_key [112]) (List.replicate 12 0) (List.replicate 134217728 0))] ++
          (List.replicate 12 1 ++ [0, 0])))
      [112] true 4 ≠ .error .unexpectedEof := by
  have hctlen : (sealA (derive_key [112]) (List.replicate 12 0)
      (List.replicate 134217728 0)).length = 134217744 := by
    rw [sealA_length, List.length_replicate]
  have hwf : WFframes [(List.replicate 12 0,
      sealA (derive_key [112]) (List.replicate 12 0) (List.replicate 134217728 0))] := by
    intro p hp
    rcases List.mem_cons.mp hp with h1 | h2
    · subst h1
      constructor
      · rw [List.length_replicate]
      · rw [hctlen]; decide
    · exact absurd h2 (List.not_mem_nil p)
  have hblen : (encodeFrames [(List.replicate 12 0,
      sealA (derive_key [112]) (List.replicate 12 0) (List.replicate 134217728 0))] ++
        (List.replicate 12 1 ++ [0, 0])).length = 134217774 := by
    rw [List.length_append, encodeFrames_cons, encodeFrames_nil, List.append_nil,
      frameBytes_length, List.length_replicate, hctlen, List.length_append,
      List.length_replicate]
    decide
  have hparse : parseFramesMem
      (encodeFrames [(List.replicate 12 0,
          sealA (derive_key [112]) (List.replicate 12 0) (List.replicate 134217728 0))] ++
        (List.replicate 12 1 ++ [0, 0]))
      = .ok [(List.replicate 12 0,
          sealA (derive_key [112]) (List.replicate 12 0) (List.replicate 134217728 0))] := by
    rw [parseFramesMem_encode_withTail _ _ hwf,
      parseFramesMem_nonce_short (List.replicate 12 1) [0, 0] (by rw [List.length_replicate])
        (by decide)]
    exact congrArg Except.ok (List.append_nil _)
  have hopen : openFrames (derive_key [112])
      [(List.replicate 12 0,
        sealA (derive_key [112]) (List.replicate 12 0) (List.replicate 134217728 0))]
      = .ok [List.replicate 134217728 0] :=
    openFrames_sealedFrames (derive_key [112]) (fun _ : Nat => List.replicate 12 0)
      [List.replicate 134217728 0] 0
  have main : decrypt_file_internal
      (headerOf none ++
        (encodeFrames [(List.replicate 12 0,
            sealA (derive_key [112]) (List.replicate 12 0) (List.replicate 134217728 0))] ++
          (List.replicate 12 1 ++ [0, 0])))
      [112] true 4 = .ok (List.replicate 134217728 0) := by
    have step := decrypt_multi_mem_ok [112] none true 4 _ _ _
      (by rw [hblen]; decide) (by rw [hblen]; decide) (by rw [hblen]; decide) hparse hopen
    have hfl : ([List.replicate 134217728 (0 : Nat)] : List (List Nat)).flatten
        = List.replicate 134217728 0 := by
      rw [List.flatten_cons, List.flatten_nil, List.append_nil]
    exact step.trans (congrArg Except.ok hfl)
  exact ⟨main, by rw [main]; intro h; exact Except.noConfusion h⟩

/-- C3, amended: in the in-memory multi-chunk decrypt path, EOF at the
12-byte nonce read is a clean end of stream, and EOF after a nonce has
been read but during the 4-byte length prefix is also a clean end of
stream (the frames already read are decrypted and returned); only EOF
during the ciphertext read — in particular a length prefix larger than
the remaining bytes — fails with the TruncatedFrame (unexpected EOF)
error. The last conjunct ties the frame reader to `decrypt_file`: on a
multi-chunk body within the parallel threshold the operation is exactly
this frame parse followed by an ordered parallel decrypt. -/
theorem c3_truncation_amended (fs : List (List Nat × List Nat)) (t1 n u v : List Nat) (L : Nat)
    (password : List Nat) (hint : Option (List Nat)) (is_mobile : Bool) (cpu_cores : Nat)
    (body : List Nat)
    (hwf : WFframes fs) (ht1 : t1.length < 12) (hn : n.length = 12) (hu : u.length < 4)
    (hL : L < 4294967296) (hv : v.length < L)
    (h12 : ¬ body.length < 12) (hbig : ¬ (body.length - 12 ≤ get_chunk_size is_mobile + 16))
    (hmem : body.length ≤ get_parallel_batch_threshold is_mobile) :
    parseFramesMem (encodeFrames fs ++ t1) = .ok fs ∧
    parseFramesMem (encodeFrames fs ++ (n ++ u)) = .ok fs ∧
    parseFramesMem (encodeFrames fs ++ (n ++ (toBe32 L ++ v))) = .error .unexpectedEof ∧
    decrypt_file_internal (headerOf hint ++ body) password is_mobile cpu_cores
      = match parseFramesMem body with
        | .error e => .error e
        | .ok gs =>
          match openFrames (derive_key password) gs with
          | .error e => .error e
          | .ok pts => .ok pts.flatten := by
  refine ⟨?_, ?_, ?_, ?_⟩
  · rw [parseFramesMem_encode_withTail _ _ hwf, parseFramesMem_short t1 ht1]
    exact congrArg Except.ok (List.append_nil _)
  · rw [parseFramesMem_encode_withTail _ _ hwf, parseFramesMem_nonce_short n u hn hu]
    exact congrArg Except.ok (List.append_nil _)
  · rw [parseFramesMem_encode_withTail _ _ hwf, parseFramesMem_trunc n v L hn hL hv]
  · exact decrypt_multi_mem password hint is_mobile cpu_cores body h12 hbig hmem

theorem c3_truncation_amended_witness :
    parseFramesMem (encodeFrames [] ++ (List.replicate 12 0 ++ [0])) = .ok [] :=
  (c3_truncation_amended [] [] (List.replicate 12 0) [0] [] 1 [1] none true 4
    (List.replicate 134217757 0)
    (fun p hp => absurd hp (List.not_mem_nil p)) (by decide)
    (by rw [List.length_replicate]) (by decide) (by decide) (by decide)
    (by rw [List.length_replicate]; decide) (by rw [List.length_replicate]; decide)
    (by rw [List.length_replicate]; decide)).2.1

/-- C4, counterexample: a container whose version field is 2 (little-endian
`[2,0,0,0]`) with a 1-byte hint. The claim requires every header-parsing
operation, including the read-hint fast path, to reject it with
UnsupportedVersion; `get_hint_from_file` instead reads the four version
bytes without checking them and succeeds, returning the hint. -/
theorem c4_version_counterexample :
    get_hint_from_file_internal
        (MAGIC_STRING ++ ([2, 0, 0, 0] ++ [1, 65])) = .ok [65] ∧
    get_hint_from_file_internal
        (MAGIC_STRING ++ ([2, 0, 0, 0] ++ [1, 65])) ≠ .error .unsupportedVersion := by
  constructor
  · rfl
  · intro h
    exact Except.noConfusion h

theorem parseHeaderChecked_badversion (vb rest : List Nat) (hv4 : vb.length = 4)
    (hvne : fromLe32 vb ≠ VERSION) :
    parseHeaderChecked (MAGIC_STRING ++ (vb ++ rest)) = .error .unsupportedVersion := by
  have hlen : (MAGIC_STRING ++ (vb ++ rest)).length = 14 + rest.length := by
    rw [List.length_append, List.length_append, hv4, MAGIC_STRING_length]
    omega
  have htake10 : (MAGIC_STRING ++ (vb ++ rest)).take 10 = MAGIC_STRING :=
    List.take_left' MAGIC_STRING_length
  have hdrop10 : (MAGIC_STRING ++ (vb ++ rest)).drop 10 = vb ++ rest :=
    List.drop_left' MAGIC_STRING_length
  unfold parseHeaderChecked HEADER_SIZE
  rw [if_neg (by omega), htake10, if_neg (by simp), if_neg (by omega), hdrop10,
    List.take_left' hv4, if_pos hvne]

/-- C4, amended: `decrypt_file` and `decrypt_file_to_memory` read the
4-byte little-endian version and reject any value other than 1 with
UnsupportedVersion before any further work (whatever follows the version
field); the read-hint fast path reads the four version bytes but does not
check them — its result is the same for every 4-byte version field. -/
theorem c4_version_check_amended (vb rest password : List Nat) (is_mobile : Bool)
    (cpu_cores : Nat) (hv4 : vb.length = 4) (hvne : fromLe32 vb ≠ VERSION) :
    decrypt_file_internal (MAGIC_STRING ++ (vb ++ rest)) password is_mobile cpu_cores
      = .error .unsupportedVersion ∧
    decrypt_file_to_memory_internal (MAGIC_STRING ++ (vb ++ rest)) password is_mobile cpu_cores
      = .error .unsupportedVersion ∧
    (∀ vb2 : List Nat, vb2.length = 4 →
      get_hint_from_file_internal (MAGIC_STRING ++ (vb ++ rest))
        = get_hint_from_file_internal (MAGIC_STRING ++ (vb2 ++ rest))) := by
  have hbad := parseHeaderChecked_badversion vb rest hv4 hvne
  refine ⟨?_, ?_, ?_⟩
  · unfold decrypt_file_internal
    rw [hbad]
  · unfold decrypt_file_to_memory_internal
    rw [hbad]
  · have hgen : ∀ vbX : List Nat, vbX.length = 4 →
        get_hint_from_file_internal (MAGIC_STRING ++ (vbX ++ rest))
          = if 14 + rest.length < 15 then .error .unexpectedEof
            else if (rest.drop 1).length < rest.headD 0 then .error .unexpectedEof
            else .ok ((rest.drop 1).take (rest.headD 0)) := by
      intro vbX hX
      have hlenX : (MAGIC_STRING ++ (vbX ++ rest)).length = 14 + rest.length := by
        rw [List.length_append, List.length_append, hX, MAGIC_STRING_length]
        omega
      have htake10 : (MAGIC_STRING ++ (vbX ++ rest)).take 10 = MAGIC_STRING :=
        List.take_left' MAGIC_STRING_length
      have hdrop10 : (MAGIC_STRING ++ (vbX ++ rest)).drop 10 = vbX ++ rest :=
        List.drop_left' MAGIC_STRING_length
      have hdrop14 : (MAGIC_STRING ++ (vbX ++ rest)).drop 14 = rest := by
        rw [show (14 : Nat) = 10 + 4 from rfl, ← List.drop_drop, hdrop10]
        exact List.drop_left' hX
      have hdrop15 : (MAGIC_STRING ++ (vbX ++ rest)).drop 15 = rest.drop 1 := by
        rw [show (15 : Nat) = 14 + 1 from rfl, ← List.drop_drop, hdrop14]
      unfold get_hint_from_file_internal HEADER_SIZE
      rw [if_neg (by omega), htake10, if_neg (by simp), if_neg (by omega),
        hdrop14, hdrop15, hlenX]
    intro vb2 h2
    rw [hgen vb hv4, hgen vb2 h2]

theorem c4_version_check_amended_witness :
    decrypt_file_internal (MAGIC_STRING ++ ([2, 0, 0, 0] ++ [0])) [1] false 1
      = .error .unsupportedVersion :=
  (c4_version_check_amended [2, 0, 0, 0] [0] [1] false 1 (by decide) (by decide)).1

theorem get_hint_headerOf (hint : Option (List Nat)) (body : List Nat) :
    get_hint_from_file_internal (headerOf hint ++ body) = .ok (hintBytesOf hint) := by
  have hassoc : headerOf hint ++ body
      = MAGIC_STRING ++ (toLe32 VERSION ++ ((hintBytesOf hint).length :: (hintBytesOf hint ++ body))) := by
    unfold headerOf
    simp [List.append_assoc]
  have hlen : (headerOf hint ++ body).length = 15 + (hintBytesOf hint).length + body.length := by
    simp [headerOf_length]
  have htake10 : (headerOf hint ++ body).take 10 = MAGIC_STRING := by
    rw [hassoc]; exact List.take_left' MAGIC_STRING_length
  have hdrop14 : (headerOf hint ++ body).drop 14
      = (hintBytesOf hint).length :: (hintBytesOf hint ++ body) := by
    rw [show (14 : Nat) = 10 + 4 from rfl, ← List.drop_drop, hassoc,
      List.drop_left' MAGIC_STRING_length]
    exact List.drop_left' (toLe32_length VERSION)
  have hdrop15 : (headerOf hint ++ body).drop 15 = hintBytesOf hint ++ body := by
    rw [show (15 : Nat) = 14 + 1 from rfl, ← List.drop_drop, hdrop14]
    rfl
  unfold get_hint_from_file_internal HEADER_SIZE
  rw [if_neg (by omega), htake10, if_neg (by simp), if_neg (by omega), if_neg (by omega),
    hdrop14, hdrop15]
  simp only [List.headD_cons]
  rw [if_neg (by simp), List.take_left' rfl]

/-- C5: reading the hint from any container produced by `encrypt_file`
returns exactly the first `min(len(h), 32)` bytes of the hint `h` (the
whole of it when it is at most 32 bytes, the empty hint when none was
supplied), for every plaintext, password, device flags and nonce stream.
`get_hint_from_file_internal` takes no password and derives no key — the
hint read never performs key derivation or decryption. -/
theorem c5_hint_roundtrip (P password : List Nat) (hint : Option (List Nat))
    (is_mobile : Bool) (cpu_cores : Nat) (ns : Nat → List Nat) :
    get_hint_from_file_internal (encrypt_file_internal P password hint is_mobile cpu_cores ns)
      = .ok ((hint.getD []).take 32) := by
  simp only [encrypt_file_internal]
  rw [get_hint_headerOf]
  rfl

/-- C6: `encrypt_file` selects the body layout solely from the plaintext
size against the tuner values: at most `chunk_size` (including exactly
`chunk_size`) gives the single-shot body — one nonce then one sealed blob
with no length prefix, `12 + (|P| + 16)` bytes in all; between `chunk_size`
(exclusive) and `parallel_threshold` (inclusive) gives the multi-chunk body
built in one in-memory parallel pass over all chunks; above
`parallel_threshold` gives the streaming batched loop, which emits the
same frames batch by batch (`batch_size` chunks per batch). -/
theorem c6_mode_selection (P password : List Nat) (hint : Option (List Nat)) (is_mobile : Bool)
    (cpu_cores : Nat) (ns : Nat → List Nat) :
    (P.length ≤ get_chunk_size is_mobile →
      encrypt_file_internal P password hint is_mobile cpu_cores ns
        = headerOf hint ++ (ns 0 ++ sealA (derive_key password) (ns 0) P)) ∧
    ((∀ j, (ns j).length = 12) →
      (ns 0 ++ sealA (derive_key password) (ns 0) P).length = 12 + (P.length + 16)) ∧
    (get_chunk_size is_mobile < P.length → P.length ≤ get_parallel_batch_threshold is_mobile →
      encrypt_file_internal P password hint is_mobile cpu_cores ns
        = headerOf hint ++
            framesFrom (derive_key password) ns 0 (chunksOf (get_chunk_size is_mobile) P)) ∧
    (get_parallel_batch_threshold is_mobile < P.length →
      encrypt_file_internal P password hint is_mobile cpu_cores ns
        = headerOf hint ++ streamLoop (derive_key password) ns (get_chunk_size is_mobile)
            (get_parallel_batch_size cpu_cores is_mobile) 0 P ∧
      streamLoop (derive_key password) ns (get_chunk_size is_mobile)
          (get_parallel_batch_size cpu_cores is_mobile) 0 P
        = framesFrom (derive_key password) ns 0 (chunksOf (get_chunk_size is_mobile) P)) := by
  refine ⟨?_, ?_, ?_, ?_⟩
  · intro h1
    simp only [encrypt_file_internal]
    rw [if_pos h1]
  · intro hns
    rw [List.length_append, sealA_length, hns 0]
  · intro h1 h2
    simp only [encrypt_file_internal]
    rw [if_neg (by omega), if_pos h2]
  · intro h1
    have hchunk : get_chunk_size is_mobile < P.length := by
      have := get_parallel_batch_threshold is_mobile
      have hcm : get_chunk_size is_mobile ≤ get_parallel_batch_threshold is_mobile := by
        cases is_mobile <;> decide
      omega
    constructor
    · simp only [encrypt_file_internal]
      rw [if_neg (by omega), if_neg (by omega)]
    · exact streamLoop_frames (derive_key password) ns _ _ 0 P (get_chunk_size_pos is_mobile)
        (get_parallel_batch_size_pos cpu_cores is_mobile)

theorem c6_mode_selection_witness :
    encrypt_file_internal [1] [2] none false 1 (fun _ : Nat => List.replicate 12 0)
      = headerOf none ++ (List.replicate 12 0 ++
          sealA (derive_key [2]) (List.replicate 12 0) [1]) :=
  (c6_mode_selection [1] [2] none false 1 (fun _ : Nat => List.replicate 12 0)).1 (by decide)

/-- C7: the tuner is a pure function of `(is_mobile, cpu_cores)` with
`chunk_size` 128 MiB mobile / 256 MiB desktop, `parallel_threshold`
512 MiB mobile / 1 GiB desktop, and `batch_size` equal to
round(cores × 0.5) clamped to [2, 8] on mobile and round(cores × 0.75)
clamped to [4, 16] on desktop; in closed Nat form the rounded-half-away
values are `(cores + 1) / 2` and `(3 * cores + 2) / 4`, and 8 desktop
cores give batch size 6. -/
theorem c7_tuner_values :
    get_chunk_size true = 128 * 1024 * 1024 ∧
    get_chunk_size false = 256 * 1024 * 1024 ∧
    get_parallel_batch_threshold true = 512 * 1024 * 1024 ∧
    get_parallel_batch_threshold false = 1024 * 1024 * 1024 ∧
    (∀ cores : Nat, get_parallel_batch_size cores true = min (max ((cores + 1) / 2) 2) 8) ∧
    (∀ cores : Nat, get_parallel_batch_size cores false = min (max ((3 * cores + 2) / 4) 4) 16) ∧
    get_parallel_batch_size 8 false = 6 := by
  have h5 : ∀ cores : Nat, get_parallel_batch_size cores true
      = min (max ((cores + 1) / 2) 2) 8 := by
    intro cores
    show min (max (round ((cores : ℚ) * (1 / 2))).toNat 2) 8 = _
    rw [round_mul_half]
  have h6 : ∀ cores : Nat, get_parallel_batch_size cores false
      = min (max ((3 * cores + 2) / 4) 4) 16 := by
    intro cores
    show min (max (round ((cores : ℚ) * (3 / 4))).toNat 4) 16 = _
    rw [round_mul_threeQuarters]
  refine ⟨rfl, rfl, rfl, rfl, h5, h6, ?_⟩
  rw [h6 8]
  decide

theorem sealChunksIdx_map_length (key nonces : List Nat) :
    ∀ (chunks : List (List Nat)) (i : Nat),
      (sealChunksIdx key nonces i chunks).map List.length
        = chunks.map (fun ch => ch.length + 16) := by
  intro chunks
  induction chunks with
  | nil => intro i; rfl
  | cons ch rest ih =>
    intro i
    show (sealA key ((nonces.drop (12 * i)).take 12) ch).length ::
        (sealChunksIdx key nonces (i + 1) rest).map List.length = _
    rw [sealA_length, ih (i + 1)]
    rfl

theorem sealChunksIdx_length (key nonces : List Nat) :
    ∀ (chunks : List (List Nat)) (i : Nat),
      (sealChunksIdx key nonces i chunks).length = chunks.length := by
  intro chunks
  induction chunks with
  | nil => intro i; rfl
  | cons ch rest ih =>
    intro i
    show (sealChunksIdx key nonces (i + 1) rest).length + 1 = rest.length + 1
    rw [ih (i + 1)]

theorem openChunksIdx_length (key nonces : List Nat) :
    ∀ (chunks : List (List Nat)) (i : Nat),
      (openChunksIdx key nonces i chunks).length = chunks.length := by
  intro chunks
  induction chunks with
  | nil => intro i; rfl
  | cons ch rest ih =>
    intro i
    show (openChunksIdx key nonces (i + 1) rest).length + 1 = rest.length + 1
    rw [ih (i + 1)]

theorem zipWithNull_replicate_true (es : List (List Nat)) :
    es.zipWith (fun e isNull => if isNull then none else some e)
        (List.replicate es.length true)
      = es.map (fun _ => (none : Option (List Nat))) := by
  induction es with
  | nil => rfl
  | cons e rest ih =>
    show (if true then none else some e) ::
        rest.zipWith (fun e isNull => if isNull then none else some e)
          (List.replicate rest.length true) = none :: rest.map (fun _ => none)
    rw [if_pos rfl, ih]

theorem zipWithNull_replicate_false (es : List (List Nat)) :
    es.zipWith (fun e isNull => if isNull then none else some e)
        (List.replicate es.length false)
      = es.map some := by
  induction es with
  | nil => rfl
  | cons e rest ih =>
    show (if false then none else some e) ::
        rest.zipWith (fun e isNull => if isNull then none else some e)
          (List.replicate rest.length false) = some e :: rest.map some
    rw [if_neg (by simp), ih]

theorem any_isNone_map_some (pts : List (List Nat)) :
    (pts.map some).any (fun r => r.isNone) = false := by
  induction pts with
  | nil => rfl
  | cons p rest ih => simp [ih]

theorem reduceOption_map_some_eq (pts : List (List Nat)) :
    (pts.map some).reduceOption = pts := by
  induction pts with
  | nil => rfl
  | cons p rest ih =>
    rw [List.map_cons, List.reduceOption_cons_of_some, ih]

/-- C8: every buffer-returning FFI operation, called with a null output
data pointer on an otherwise valid input, still returns success and writes
the required output byte count into the caller's length cell, and when the
output pointer is non-null exactly that many bytes are written: this holds
for `encrypt_data` (output is always `|data| + 16` bytes), `decrypt_data`
(on an authenticating input), `decrypt_file_to_memory` and
`get_hint_from_file` (on inputs whose internal operation succeeds), and
the per-chunk cells of `encrypt_data_parallel` and `decrypt_data_parallel`. -/
theorem c8_null_pointer_contract
    (data password nonce ct pt file file2 d hintB : List Nat)
    (is_mobile : Bool) (cpu_cores : Nat)
    (chunks pts : List (List Nat)) (nonces pw2 : List Nat)
    (hct : openA (derive_key password) nonce ct = some pt)
    (hfile : decrypt_file_to_memory_internal file password is_mobile cpu_cores = .ok d)
    (hfile2 : get_hint_from_file_internal file2 = .ok hintB)
    (hpar : openChunksIdx (derive_key pw2) nonces 0 chunks = pts.map some) :
    (encrypt_data data password nonce true = (0, some (data.length + 16), none) ∧
     encrypt_data data password nonce false
        = (0, some (data.length + 16), some (sealA (derive_key password) nonce data)) ∧
     (sealA (derive_key password) nonce data).length = data.length + 16) ∧
    (decrypt_data ct password nonce true = (0, some pt.length, none) ∧
     decrypt_data ct password nonce false = (0, some pt.length, some pt)) ∧
    (decrypt_file_to_memory file password is_mobile cpu_cores true = (0, some d.length, none) ∧
     decrypt_file_to_memory file password is_mobile cpu_cores false
        = (0, some d.length, some d)) ∧
    (get_hint_from_file file2 true = (0, some hintB.length, none) ∧
     get_hint_from_file file2 false = (0, some hintB.length, some hintB)) ∧
    (encrypt_data_parallel chunks pw2 nonces (List.replicate chunks.length true)
        = (0, some (chunks.map (fun ch => ch.length + 16)),
           chunks.map (fun _ => none)) ∧
     encrypt_data_parallel chunks pw2 nonces (List.replicate chunks.length false)
        = (0, some (chunks.map (fun ch => ch.length + 16)),
           (sealChunksIdx (derive_key pw2) nonces 0 chunks).map some)) ∧
    (decrypt_data_parallel chunks pw2 nonces (List.replicate chunks.length true)
        = (0, some (pts.map List.length), pts.map (fun _ => none)) ∧
     decrypt_data_parallel chunks pw2 nonces (List.replicate chunks.length false)
        = (0, some (pts.map List.length), pts.map some)) := by
  have hplen : pts.length = chunks.length := by
    have h1 := openChunksIdx_length (derive_key pw2) nonces chunks 0
    rw [hpar, List.length_map] at h1
    exact h1
  have hslen : (sealChunksIdx (derive_key pw2) nonces 0 chunks).length = chunks.length :=
    sealChunksIdx_length (derive_key pw2) nonces chunks 0
  refine ⟨⟨?_, ?_, ?_⟩, ⟨?_, ?_⟩, ⟨?_, ?_⟩, ⟨?_, ?_⟩, ⟨?_, ?_⟩, ⟨?_, ?_⟩⟩
  · show (0, some (sealA (derive_key password) nonce data).length,
        (none : Option (List Nat))) = _
    rw [sealA_length]
  · show (0, some (sealA (derive_key password) nonce data).length,
        some (sealA (derive_key password) nonce data)) = _
    rw [sealA_length]
  · exact sealA_length _ _ _
  · unfold decrypt_data
    rw [hct]
    rfl
  · unfold decrypt_data
    rw [hct]
    rfl
  · unfold decrypt_file_to_memory
    rw [hfile]
    rfl
  · unfold decrypt_file_to_memory
    rw [hfile]
    rfl
  · unfold get_hint_from_file
    rw [hfile2]
    rfl
  · unfold get_hint_from_file
    rw [hfile2]
    rfl

  · show (0, some ((sealChunksIdx (derive_key pw2) nonces 0 chunks).map List.length),
        (sealChunksIdx (derive_key pw2) nonces 0 chunks).zipWith
          (fun e isNull => if isNull then none else some e)
          (List.replicate chunks.length true)) = _
    rw [sealChunksIdx_map_length, ← hslen, zipWithNull_replicate_true]
    rw [List.map_const', List.map_const', hslen]
  · show (0, some ((sealChunksIdx (derive_key pw2) nonces 0 chunks).map List.length),
        (sealChunksIdx (derive_key pw2) nonces 0 chunks).zipWith
          (fun e isNull => if isNull then none else some e)
          (List.replicate chunks.length false)) = _
    rw [sealChunksIdx_map_length, ← hslen, zipWithNull_replicate_false]
  · simp only [decrypt_data_parallel]
    rw [hpar, any_isNone_map_some, if_neg (by simp), reduceOption_map_some_eq]
    rw [← hplen, zipWithNull_replicate_true]
  · simp only [decrypt_data_parallel]
    rw [hpar, any_isNone_map_some, if_neg (by simp), reduceOption_map_some_eq]
    rw [← hplen, zipWithNull_replicate_false]

theorem c8_null_pointer_contract_witness :
    encrypt_data [1] [2] (List.replicate 12 0) true
      = (0, some (([1] : List Nat).length + 16), none) :=
  (c8_null_pointer_contract [1] [2] (List.replicate 12 0)
    (sealA (derive_key [2]) (List.replicate 12 0) [5]) [5]
    (encrypt_file_internal [9] [2] none false 1 (fun _ : Nat => List.replicate 12 0))
    (encrypt_file_internal [9] [2] none false 1 (fun _ : Nat => List.replicate 12 0))
    [9] [] false 1
    [sealA (derive_key [2]) (List.replicate 12 0) [3]] [[3]]
    (List.replicate 12 0) [2]
    (openA_sealA (derive_key [2]) (List.replicate 12 0) [5])
    (by rfl) (by rfl) (by decide)).1.1

/-- C9: in every multi-chunk container produced by `encrypt_file`, the
i-th frame's 12-byte nonce is the value of the i-th distinct call to the
CSPRNG nonce generator (the nonce stream `ns`), one call per chunk in
chunk order — frame i carries `ns i`, so no nonce value is intentionally
reused between chunks, and whenever the generator never repeats (an
injective stream) the nonces in the file are pairwise distinct. -/
theorem c9_fresh_nonces (P password : List Nat) (hint : Option (List Nat)) (is_mobile : Bool)
    (cpu_cores : Nat) (ns : Nat → List Nat) (hns : ∀ j, (ns j).length = 12)
    (hmulti : get_chunk_size is_mobile < P.length) :
    ∃ fs, parseFramesMem
        ((encrypt_file_internal P password hint is_mobile cpu_cores ns).drop
          (headerOf hint).length) = .ok fs ∧
      fs.map Prod.fst
        = (List.range (chunksOf (get_chunk_size is_mobile) P).length).map ns ∧
      (Function.Injective ns → (fs.map Prod.fst).Nodup) := by
  have hbody : encrypt_file_internal P password hint is_mobile cpu_cores ns
      = headerOf hint ++
          framesFrom (derive_key password) ns 0 (chunksOf (get_chunk_size is_mobile) P) := by
    simp only [encrypt_file_internal]
    rw [if_neg (by omega)]
    by_cases h2 : P.length ≤ get_parallel_batch_threshold is_mobile
    · rw [if_pos h2]
    · rw [if_neg h2, streamLoop_frames (derive_key password) ns _ _ 0 P
        (get_chunk_size_pos is_mobile) (get_parallel_batch_size_pos cpu_cores is_mobile)]
  have hbound : ∀ ch ∈ chunksOf (get_chunk_size is_mobile) P, ch.length + 16 < 4294967296 := by
    intro ch hch
    have := chunksOf_mem_length _ P ch hch
    have := get_chunk_size_low is_mobile
    omega
  have hwf : WFframes (sealedFrames (derive_key password) ns 0
      (chunksOf (get_chunk_size is_mobile) P)) :=
    sealedFrames_wf _ ns hns _ 0 hbound
  refine ⟨sealedFrames (derive_key password) ns 0 (chunksOf (get_chunk_size is_mobile) P),
    ?_, ?_, ?_⟩
  · rw [hbody, List.drop_left, framesFrom_eq_encode]
    exact parse_encode _ hwf
  · rw [sealedFrames_map_fst, List.range_eq_range']
  · intro hinj
    rw [sealedFrames_map_fst]
    exact (List.nodup_range' _ _).map hinj

theorem c9_fresh_nonces_witness :
    ∃ fs, parseFramesMem
        ((encrypt_file_internal (List.replicate 134217729 0) [3] none true 4
            (fun _ : Nat => List.replicate 12 0)).drop (headerOf none).length) = .ok fs ∧
      fs.map Prod.fst
        = (List.range (chunksOf (get_chunk_size true) (List.replicate 134217729 0)).length).map
            (fun _ : Nat => List.replicate 12 0) ∧
      (Function.Injective (fun _ : Nat => (List.replicate 12 0 : List Nat)) →
        (fs.map Prod.fst).Nodup) :=
  c9_fresh_nonces (List.replicate 134217729 0) [3] none true 4
    (fun _ : Nat => List.replicate 12 0) (fun _ => by simp)
    (by rw [List.length_replicate]; decide)

/-- C10: a hint argument that is not valid UTF-8 does not make
`encrypt_file` fail — `CStr::to_str().ok()` turns it into an absent hint,
the call returns 0, the produced container is identical to one encrypted
with no hint at all, and its header carries `hint_len = 0` (bytes 0-14 are
the magic, version 1 little-endian and a zero hint-length byte). -/
theorem c10_invalid_utf8_hint (P password h : List Nat) (is_mobile : Bool) (cpu_cores : Nat)
    (ns : Nat → List Nat) (hbad : validUtf8 h = false) :
    encrypt_file P password (some h) is_mobile cpu_cores ns
      = encrypt_file P password none is_mobile cpu_cores ns ∧
    (encrypt_file P password (some h) is_mobile cpu_cores ns).1 = 0 ∧
    (encrypt_file P password (some h) is_mobile cpu_cores ns).2.take 15
      = MAGIC_STRING ++ (toLe32 VERSION ++ [0]) := by
  have hnone : cstrToStr h = none := by
    unfold cstrToStr
    rw [if_neg (by simp [hbad])]
  refine ⟨?_, ?_, ?_⟩
  · show (0, encrypt_file_internal P password (cstrToStr h) is_mobile cpu_cores ns)
        = ((0 : Int), encrypt_file_internal P password none is_mobile cpu_cores ns)
    rw [hnone]
  · rfl
  · show (encrypt_file_internal P password (cstrToStr h) is_mobile cpu_cores ns).take 15 = _
    rw [hnone]
    simp only [encrypt_file_internal]
    rw [List.take_left' (show (headerOf none).length = 15 from rfl)]
    rfl

theorem c10_invalid_utf8_hint_witness :
    encrypt_file [1] [2] (some [255]) false 1 (fun _ : Nat => List.replicate 12 0)
      = encrypt_file [1] [2] none false 1 (fun _ : Nat => List.replicate 12 0) :=
  (c10_invalid_utf8_hint [1] [2] [255] false 1 (fun _ : Nat => List.replicate 12 0)
    (by decide)).1
